import Mathlib

/-!
Shallow embedding of `textacy/vsm.py`: vocabulary building, term counting,
document-frequency and information-content filtering, and term weighting
for document-term matrices.  Sparse CSR matrices are embedded as dense
row-major lists of entries (a stored CSR entry is exactly a non-zero entry
of the dense matrix for every matrix produced by counting, since per-doc
counters only emit positive counts); integer counts are `Nat`, float
values after weighting are `ℝ`, numpy float divisions on integer data are
exact rationals or reals.
-/

namespace Vsm

/-- Error taxonomy of `vsm.py` (each constructor matches one of the
`ValueError` sites in the source). -/
inductive VsmErr where
  | emptyMatrix
  | negativeBounds
  | boundsConflict
  | noTermsRemain
  | invalidVocabulary
  | emptyVocabulary
  | invalidConfig
deriving DecidableEq

/-- A vocabulary: association list from term string to integer id, kept in
insertion order (a Python dict preserves insertion order). -/
abbrev Vocab := List (String × Nat)

/-- Lookup of `vocabulary[term]` (`some id` when present). -/
def idOf (v : Vocab) (t : String) : Option Nat :=
  (v.find? (fun p => p.1 == t)).map Prod.snd

/-- One step of the open-vocabulary `defaultdict` with
`default_factory = vocabulary.__len__`: an unseen term is appended with the
next sequential id, a seen term leaves the vocabulary unchanged. -/
def addTerm (v : Vocab) (t : String) : Vocab :=
  if (idOf v t).isSome then v else v ++ [(t, v.length)]

/-- The vocabulary built by `Vectorizer._count_terms` with `fixed_vocab=False`:
every term of every document is looked up once, in streaming order. -/
def buildVocab (docs : List (List String)) : Vocab :=
  docs.foldl (fun v doc => doc.foldl addTerm v) []

/-- Modelled from the spec: the distinct term strings of a stream in order of
first appearance ("first appearance across the whole input, not sorted"). -/
def firstSight (l : List String) : List String :=
  l.foldl (fun acc t => if t ∈ acc then acc else acc ++ [t]) []

/-- Dense embedding of a `scipy.sparse.csr_matrix` of integer counts:
`nCols` is the column dimension recorded in `shape`, `rows` the dense rows. -/
structure Mat where
  nCols : Nat
  rows : List (List Nat)
deriving DecidableEq

/-- One row of the counted matrix: entry `j` is the aggregated occurrence
count (the source's per-document `term_counter`) of the terms mapped to
id `j`; out-of-vocabulary terms (`idOf v t = none`) are skipped. -/
def countRow (v : Vocab) (doc : List String) : List Nat :=
  (List.range v.length).map (fun j => (doc.filter (fun t => idOf v t == some j)).length)

/-- The dense rows of the counted document-term matrix. -/
def countMatrix (v : Vocab) (docs : List (List String)) : List (List Nat) :=
  docs.map (countRow v)

/-- Whether the term vocabulary is open (built while counting) or fixed
(externally supplied / previously fit; `self._fixed_terms`). -/
inductive VocabState where
  | opened
  | fixed (v : Vocab)

def VocabState.isFixed : VocabState → Bool
  | .opened => false
  | .fixed _ => true

/-- `Vectorizer._count_terms`: returns the counted matrix of shape
`(len(docs), len(vocabulary))` together with the (possibly newly built)
vocabulary.  In fixed mode the instance vocabulary is used unchanged and
out-of-vocabulary terms raise `KeyError` and are skipped; in open mode the
`defaultdict` assigns fresh sequential ids. -/
def count_terms (vs : VocabState) (docs : List (List String)) : Mat × Vocab :=
  let v := match vs with
    | .opened => buildVocab docs
    | .fixed v => v
  (⟨v.length, countMatrix v docs⟩, v)

/-- Number of stored (non-zero) entries, `doc_term_matrix.nnz`. -/
def nnz (m : Mat) : Nat :=
  (m.rows.map (fun r => r.countP (fun x => decide (x ≠ 0)))).sum

/-- Document frequency of column `j`: number of rows with a stored entry
there (`np.bincount(doc_term_matrix.indices)`). -/
def dfOf (m : Mat) (j : Nat) : Nat :=
  m.rows.countP (fun r => decide (r.getD j 0 ≠ 0))

/-- Term frequency of column `j`: its column sum (`doc_term_matrix.sum(axis=0)`). -/
def tfOf (m : Mat) (j : Nat) : Nat :=
  (m.rows.map (fun r => r.getD j 0)).sum

/-- `get_doc_freqs(matrix, normalized=False)`: raises on a matrix without
stored entries, otherwise the vector of absolute document frequencies. -/
def get_doc_freqs (m : Mat) : Except VsmErr (List Nat) :=
  if nnz m = 0 then .error .emptyMatrix
  else .ok ((List.range m.nCols).map (dfOf m))

/-- `get_term_freqs(matrix, normalized=False)`: raises on a matrix without
stored entries, otherwise the vector of absolute term frequencies. -/
def get_term_freqs (m : Mat) : Except VsmErr (List Nat) :=
  if nnz m = 0 then .error .emptyMatrix
  else .ok ((List.range m.nCols).map (tfOf m))

/-- `get_doc_freqs(matrix, normalized=True)`: document frequencies divided by
the number of rows (numpy float division of integers, exact in `ℚ`). -/
def get_doc_freqs_norm (m : Mat) : Except VsmErr (List ℚ) :=
  if nnz m = 0 then .error .emptyMatrix
  else .ok ((List.range m.nCols).map (fun j => (dfOf m j : ℚ) / (m.rows.length : ℚ)))

/-- A `min_df` / `max_df` argument: Python passes either an `int` (absolute
document count) or a `float` (fraction of the total number of documents). -/
inductive DfIn where
  | int (n : Int)
  | frac (q : ℚ)
deriving DecidableEq

/-- Numeric value of the bound, for Python mixed-type comparisons such as
`max_df == 1.0` (true for `int` 1 as well as `float` 1.0). -/
def DfIn.toRat : DfIn → ℚ
  | .int n => n
  | .frac q => q

def DfIn.isNeg : DfIn → Bool
  | .int n => decide (n < 0)
  | .frac q => decide (q < 0)

/-- `max_df if isinstance(max_df, int) else int(max_df * n_docs)`; Python
`int()` truncates toward zero, which for the non-negative fractions that
pass the sign check equals the floor; `⌊q * n⌋` is written as the integer
floor division `q.num * n / q.den` (they agree, see the C3 theorem). -/
def resolveDf (b : DfIn) (nDocs : Nat) : Int :=
  match b with
  | .int n => n
  | .frac q => (q.num * (nDocs : Int)) / (q.den : Int)

/-- `mask.sum()` for a boolean mask. -/
def countTrue (mask : List Bool) : Nat := mask.countP id

/-- `np.where(mask)[0]`: the original column indices kept by the mask,
in ascending order. -/
def trueIdxs (mask : List Bool) : List Nat :=
  (List.range mask.length).filter (fun j => mask.getD j false)

/-- `np.cumsum(mask) - 1` evaluated at position `j`: the compact new id of
an original column id `j` kept by the mask. -/
def newIdx (mask : List Bool) (j : Nat) : Nat :=
  countTrue (mask.take (j+1)) - 1

/-- The document-frequency mask of `filter_terms_by_df`: the upper bound is
applied only when `max_doc_count < n_docs` and the lower bound only when
`min_doc_count > 1`, exactly as in the source. -/
def dfBoundsMask (dfs : List Nat) (nDocs : Nat) (maxDc minDc : Int) : List Bool :=
  dfs.map (fun (d : Nat) =>
    (!(decide (maxDc < (nDocs : Int))) || decide ((d : Int) ≤ maxDc)) &&
    (!(decide (1 < minDc)) || decide (minDc ≤ (d : Int))))

/-- Comparison key of a stable ascending argsort of `xs`: position `i`
precedes position `j` when its value is smaller, with ties broken by
position. -/
def argLe [LinearOrder α] [Zero α] (xs : List α) (i j : Nat) : Prop :=
  xs.getD i 0 < xs.getD j 0 ∨ (xs.getD i 0 = xs.getD j 0 ∧ i ≤ j)

instance [LinearOrder α] [Zero α] (xs : List α) : DecidableRel (argLe xs) := fun i j => by
  unfold argLe; infer_instance

/-- `xs.argsort()` modeled as an ascending argsort with ties broken by
position (an insertion sort over the positions). numpy's default sort kind
(quicksort/introsort) is documented as *not* stable, so the real tie order
is unspecified; this executable model realizes one admissible outcome — it
agrees with numpy exactly on the small arrays appearing in the concrete
scenarios below, where introsort falls back to an insertion sort, and
agrees up to tie order everywhere. Properties sensitive to tie order are
therefore stated over every admissible outcome via `DescArgsortOf`. -/
def argsortAsc [LinearOrder α] [Zero α] (xs : List α) : List Nat :=
  List.insertionSort (argLe xs) (List.range xs.length)

/-- `np.where(mask)[0][(xs[mask]).argsort()[::-1][:k]]`: the original
indices of the top-`k` masked values, highest first. -/
def topSel [LinearOrder α] [Zero α] (xs : List α) (mask : List Bool) (k : Nat) : List Nat :=
  let kept := trueIdxs mask
  let xsMasked := kept.map (fun i => xs.getD i 0)
  ((argsortAsc xsMasked).reverse.take k).map (fun p => kept.getD p 0)

/-- The documented contract of `np.where(mask)[0][(xs[mask]).argsort()[::-1]]`
for numpy's default sort kind: some permutation of the surviving indices
`idxs` that is weakly descending in the key `xs`. The default `np.argsort`
(quicksort/introsort) is documented as not stable, so the relative order of
equal keys is unspecified — every such permutation is an admissible
outcome. -/
def DescArgsortOf (xs idxs out : List Nat) : Prop :=
  out.Perm idxs ∧ out.Pairwise (fun i j => xs.getD j 0 ≤ xs.getD i 0)

/-- The full descending selection realized by the executable model: the
reversed argsort of the masked values mapped back to original column ids,
before the `[:max_n_terms]` truncation. -/
def fullSel (xs : List Nat) (mask : List Bool) : List Nat :=
  ((argsortAsc ((trueIdxs mask).map (fun i => xs.getD i 0))).reverse).map
    (fun p => (trueIdxs mask).getD p 0)

/-- `new_mask = zeros; new_mask[sel] = True`. -/
def maskFromSel (n : Nat) (sel : List Nat) : List Bool :=
  (List.range n).map (fun j => decide (j ∈ sel))

/-- `doc_term_matrix[:, kept_indices]`. -/
def sliceCols (m : Mat) (kept : List Nat) : Mat :=
  ⟨kept.length, m.rows.map (fun r => kept.map (fun j => r.getD j 0))⟩

/-- `{term: new_indices[old] for term, old in term_to_id.items() if mask[old]}`. -/
def remapVocab (v : Vocab) (mask : List Bool) : Vocab :=
  v.filterMap (fun p => if mask.getD p.2 false then some (p.1, newIdx mask p.2) else none)

/-- The no-op short circuit `max_df == 1.0 and min_df == 1 and max_n_terms is None`
(Python numeric equality across int/float). -/
def shortCircuitDf (maxDf minDf : DfIn) (maxN : Option Nat) : Bool :=
  decide (maxDf.toRat = 1) && decide (minDf.toRat = 1) && decide (maxN = none)

/-- `filter_terms_by_df`. -/
def filter_terms_by_df (m : Mat) (term_to_id : Vocab) (maxDf minDf : DfIn)
    (maxN : Option Nat) : Except VsmErr (Mat × Vocab) :=
  if shortCircuitDf maxDf minDf maxN then .ok (m, term_to_id)
  else if maxDf.isNeg || minDf.isNeg then .error .negativeBounds
  else
    let nDocs := m.rows.length
    let maxDc := resolveDf maxDf nDocs
    let minDc := resolveDf minDf nDocs
    if maxDc < minDc then .error .boundsConflict
    else
      match get_doc_freqs m with
      | .error e => .error e
      | .ok dfs =>
        let mask1 := dfBoundsMask dfs nDocs maxDc minDc
        let maskE : Except VsmErr (List Bool) :=
          match maxN with
          | some k =>
            if k < countTrue mask1 then
              match get_term_freqs m with
              | .error e => .error e
              | .ok tfs => .ok (maskFromSel m.nCols (topSel tfs mask1 k))
            else .ok mask1
          | none => .ok mask1
        match maskE with
        | .error e => .error e
        | .ok mask =>
          if (trueIdxs mask).isEmpty then .error .noTermsRemain
          else .ok (sliceCols m (trueIdxs mask), remapVocab term_to_id mask)

/-- `get_information_content`: entropy of the normalized document frequency.
numpy produces NaN at `df ∈ {0, 1}` (from `0 * log2(0)`) which the source
replaces by `0`; with `Real.logb 2 0 = 0` the formula already evaluates to
`0` there, so no replacement step is needed in the embedding. -/
noncomputable def get_information_content (m : Mat) : Except VsmErr (List ℝ) :=
  match get_doc_freqs_norm m with
  | .error e => .error e
  | .ok dfs =>
    .ok (dfs.map (fun p => -(p : ℝ) * Real.logb 2 (p : ℝ) - (1 - (p : ℝ)) * Real.logb 2 (1 - (p : ℝ))))

/-- `filter_terms_by_ic` (`max_n_terms < 0` is unrepresentable with `Nat`). -/
noncomputable def filter_terms_by_ic (m : Mat) (term_to_id : Vocab) (min_ic : ℚ)
    (maxN : Option Nat) : Except VsmErr (Mat × Vocab) :=
  if min_ic = 0 ∧ maxN = none then .ok (m, term_to_id)
  else if min_ic < 0 ∨ 1 < min_ic then .error .invalidConfig
  else
    match get_information_content m with
    | .error e => .error e
    | .ok ics =>
      let mask1 := ics.map (fun x => !(decide ((0:ℚ) < min_ic)) || decide (((min_ic : ℝ)) ≤ x))
      let mask :=
        match maxN with
        | some k =>
          if k < countTrue mask1 then maskFromSel m.nCols (topSel ics mask1 k)
          else mask1
        | none => mask1
      if (trueIdxs mask).isEmpty then .error .noTermsRemain
      else .ok (sliceCols m (trueIdxs mask), remapVocab term_to_id mask)

/-- Dense embedding of the float CSR matrix produced by weighting. -/
structure RMat where
  nCols : Nat
  rows : List (List ℝ)

/-- `astype(np.float64)`. -/
def toR (m : Mat) : RMat :=
  ⟨m.nCols, m.rows.map (fun r => r.map (fun (v : Nat) => (v : ℝ)))⟩

/-- `doc_term_matrix.data.fill(1)`: every stored (non-zero) value becomes 1. -/
def binarize (m : Mat) : Mat :=
  ⟨m.nCols, m.rows.map (fun r => r.map (fun v => if v = 0 then 0 else 1))⟩

/-- Sublinear scaling `np.log(data); data += 1` on the stored values of the
float copy of a count matrix. -/
noncomputable def sublinearize (m : Mat) : RMat :=
  ⟨m.nCols,
    m.rows.map (fun r => r.map (fun (v : Nat) => if v = 0 then 0 else 1 + Real.log (v : ℝ)))⟩

/-- Stored-entry count of a float matrix. -/
noncomputable def nnzR (m : RMat) : Nat :=
  (m.rows.map (fun r => r.countP (fun x => decide (x ≠ 0)))).sum

/-- Document frequency of column `j` of a float matrix. -/
noncomputable def dfOfR (m : RMat) (j : Nat) : Nat :=
  m.rows.countP (fun r => decide (r.getD j 0 ≠ 0))

/-- `get_doc_freqs(matrix, normalized=False)` applied to the float matrix
inside `apply_idf_weighting`. -/
noncomputable def get_doc_freqsR (m : RMat) : Except VsmErr (List Nat) :=
  if nnzR m = 0 then .error .emptyMatrix
  else .ok ((List.range m.nCols).map (dfOfR m))

/-- `apply_idf_weighting`: multiply column `j` by
`log(n_docs / dfs[j]) + 1.0`, with both numbers incremented by one under
smoothing; implemented as the right-multiplication by `sp.diags(idfs)`. -/
noncomputable def apply_idf_weighting (m : RMat) (smooth_idf : Bool) :
    Except VsmErr RMat :=
  match get_doc_freqsR m with
  | .error e => .error e
  | .ok dfs0 =>
    let nDocs := if smooth_idf then m.rows.length + 1 else m.rows.length
    let dfs := if smooth_idf then dfs0.map (· + 1) else dfs0
    let idfs : List ℝ := dfs.map (fun (d : Nat) => Real.log ((nDocs : ℝ) / (d : ℝ)) + 1)
    .ok ⟨m.nCols, m.rows.map (fun r => (List.range m.nCols).map (fun j => r.getD j 0 * idfs.getD j 0))⟩

/-- Row-wise L2 normalization; `sklearn.preprocessing.normalize` leaves
all-zero rows untouched (it replaces zero norms by 1 before dividing). -/
noncomputable def l2row (r : List ℝ) : List ℝ :=
  let n := Real.sqrt ((r.map (fun v => v ^ 2)).sum)
  if n = 0 then r else r.map (fun v => v / n)

noncomputable def l2normalizeRows (m : RMat) : RMat :=
  ⟨m.nCols, m.rows.map l2row⟩

inductive Weighting where
  | tf
  | tfidf
  | binary
deriving DecidableEq

/-- The configuration recorded by `Vectorizer.__init__`. -/
structure Config where
  weighting : Weighting
  normalize : Bool
  sublinear_tf : Bool
  smooth_idf : Bool
  min_df : DfIn
  max_df : DfIn
  min_ic : ℚ
  max_n_terms : Option Nat
deriving DecidableEq

/-- `Vectorizer._reweight_values`: the `binary` branch fills the stored
values with 1; the other branch applies sublinear scaling and then idf;
the final `if self.normalize` is outside both branches and runs for every
weighting mode. -/
noncomputable def reweight_values (cfg : Config) (m : Mat) : Except VsmErr RMat :=
  let m1 : Except VsmErr RMat :=
    if cfg.weighting = Weighting.binary then
      .ok (toR (binarize m))
    else
      let m2 := if cfg.sublinear_tf then sublinearize m else toR m
      if cfg.weighting = Weighting.tfidf then apply_idf_weighting m2 cfg.smooth_idf
      else .ok m2
  match m1 with
  | .error e => .error e
  | .ok m1 => .ok (if cfg.normalize then l2normalizeRows m1 else m1)

/-- `Vectorizer._filter_terms`: a fixed vocabulary is never filtered; an
open one passes through the df filter when any of `max_df`, `min_df`,
`max_n_terms` differs from its default and through the ic filter when
`min_ic` differs from its default. -/
noncomputable def filter_terms (cfg : Config) (fixedTerms : Bool) (m : Mat) (v : Vocab) :
    Except VsmErr (Mat × Vocab) :=
  if fixedTerms then .ok (m, v)
  else
    let step1 : Except VsmErr (Mat × Vocab) :=
      if cfg.max_df.toRat ≠ 1 ∨ cfg.min_df.toRat ≠ 1 ∨ cfg.max_n_terms ≠ none then
        filter_terms_by_df m v cfg.max_df cfg.min_df cfg.max_n_terms
      else .ok (m, v)
    match step1 with
    | .error e => .error e
    | .ok (m1, v1) =>
      if cfg.min_ic ≠ 0 then filter_terms_by_ic m1 v1 cfg.min_ic cfg.max_n_terms
      else .ok (m1, v1)

/-- `Vectorizer.fit_transform`: count, filter, reweight; the instance
vocabulary after the call is the one produced by the filter step. -/
noncomputable def fit_transform (cfg : Config) (vs : VocabState)
    (docs : List (List String)) : Except VsmErr (RMat × Vocab) :=
  match filter_terms cfg vs.isFixed (count_terms vs docs).1 (count_terms vs docs).2 with
  | .error e => .error e
  | .ok (m2, v2) =>
    match reweight_values cfg m2 with
    | .error e => .error e
    | .ok m3 => .ok (m3, v2)

/-- `Vectorizer.transform`: `_check_vocabulary` (the not-a-mapping branch
models only a present vocabulary, whose only failure is emptiness), then
fixed-vocabulary counting and reweighting — no filtering. -/
noncomputable def transform (cfg : Config) (v : Vocab) (docs : List (List String)) :
    Except VsmErr RMat :=
  if v.length = 0 then .error .emptyVocabulary
  else reweight_values cfg (count_terms (.fixed v) docs).1

/-- A `vocabulary_terms` argument: a Python mapping (a dict, whose keys are
necessarily distinct) or an iterable of term strings. -/
inductive VocabInput where
  | mapping (ps : List (String × Nat))
  | iterable (ts : List String)

/-- `sorted(vocabulary)` for an iterable input. -/
def sortTerms (ts : List String) : List String :=
  List.insertionSort (fun a b => a ≤ b) ts

/-- `{term: i for i, term in enumerate(sorted_terms)}`. -/
def withIds : Nat → List String → Vocab
  | _, [] => []
  | i, t :: ts => (t, i) :: withIds (i+1) ts

/-- `Vectorizer._validate_vocabulary`: `none` yields an absent vocabulary
with `is_fixed=False`; a mapping must have unique and compact ids; an
iterable is sorted and enumerated, failing on duplicates (detected by
`setdefault` over the sorted list, i.e. exactly when the input has a
duplicate); an explicitly supplied empty vocabulary fails. -/
def validate_vocabulary (inp : Option VocabInput) :
    Except VsmErr (Option Vocab × Bool) :=
  match inp with
  | none => .ok (none, false)
  | some (.iterable ts) =>
    if ¬ ts.Nodup then .error .invalidVocabulary
    else if ts.isEmpty then .error .invalidVocabulary
    else .ok (some (withIds 0 (sortTerms ts)), true)
  | some (.mapping ps) =>
    if ¬ (ps.map Prod.snd).Nodup then .error .invalidVocabulary
    else if ¬ (List.range ps.length).all (fun i => (ps.map Prod.snd).contains i) then
      .error .invalidVocabulary
    else if ps.isEmpty then .error .invalidVocabulary
    else .ok (some ps, true)

/-- The guard of the `id_to_term` property,
`len(self.id_to_term_) != self.vocabulary_terms`: it compares an `int`
with a `dict`, and in Python `!=` between an int and a dict is always
`True` (no `__eq__` applies, so it falls back to identity), whatever the
two arguments are. -/
def lenNeqDict (_cacheLen : Nat) (_v : Vocab) : Bool :=
  true

/-- The inverse mapping `{term_id: term_str for ...}`. -/
def invVocab (v : Vocab) : List (Nat × String) :=
  v.map (fun p => (p.2, p.1))

/-- Reading the `id_to_term` property: returns the value seen by the caller
together with the new cache field `self.id_to_term_`. -/
def id_to_term_read (cache : List (Nat × String)) (v : Vocab) :
    List (Nat × String) × List (Nat × String) :=
  if lenNeqDict cache.length v then (invVocab v, invVocab v)
  else (cache, cache)

/-! ### General helper lemmas -/

lemma getD_range_map {β : Type _} (f : Nat → β) {n j : Nat} (h : j < n) (d : β) :
    ((List.range n).map f).getD j d = f j := by
  have hl : j < ((List.range n).map f).length := by simpa using h
  rw [List.getD_eq_getElem _ _ hl, List.getElem_map, List.getElem_range]

lemma getD_map_lt {α β : Type _} (f : α → β) (l : List α) {j : Nat} (h : j < l.length)
    (d : β) (d' : α) : (l.map f).getD j d = f (l.getD j d') := by
  have hl : j < (l.map f).length := by simpa using h
  rw [List.getD_eq_getElem _ _ hl, List.getElem_map, List.getD_eq_getElem _ _ h]

/-! ### Vocabulary-building lemmas (open mode) -/

lemma mem_of_idOf (v : Vocab) {t : String} {j : Nat} (h : idOf v t = some j) :
    (t, j) ∈ v := by
  unfold idOf at h
  obtain ⟨p, hp, hj⟩ := Option.map_eq_some'.mp h
  have hmem := List.mem_of_find?_eq_some hp
  have hkey := List.find?_some hp
  simp only [beq_iff_eq] at hkey
  obtain ⟨a, b⟩ := p
  simp only at hkey hj
  subst hkey; subst hj
  exact hmem

lemma idOf_isSome_iff (v : Vocab) (t : String) :
    ((idOf v t).isSome = true) ↔ t ∈ v.map Prod.fst := by
  constructor
  · intro h
    obtain ⟨j, hj⟩ := Option.isSome_iff_exists.mp h
    exact List.mem_map.mpr ⟨(t, j), mem_of_idOf v hj, rfl⟩
  · intro h
    obtain ⟨p, hp, hpe⟩ := List.mem_map.mp h
    have hfind : (List.find? (fun q => q.1 == t) v).isSome = true :=
      List.find?_isSome.mpr ⟨p, hp, by simp [hpe]⟩
    unfold idOf
    cases hf : List.find? (fun q => q.1 == t) v with
    | none => rw [hf] at hfind; simp at hfind
    | some q => simp

lemma map_fst_addTerm (v : Vocab) (t : String) :
    (addTerm v t).map Prod.fst =
      if t ∈ v.map Prod.fst then v.map Prod.fst else v.map Prod.fst ++ [t] := by
  by_cases h : t ∈ v.map Prod.fst
  · rw [if_pos h]
    unfold addTerm
    rw [if_pos ((idOf_isSome_iff v t).mpr h)]
  · rw [if_neg h]
    unfold addTerm
    rw [if_neg (by rw [idOf_isSome_iff]; exact h)]
    simp

lemma map_fst_foldl_addTerm (l : List String) (v : Vocab) :
    (l.foldl addTerm v).map Prod.fst =
      l.foldl (fun acc t => if t ∈ acc then acc else acc ++ [t]) (v.map Prod.fst) := by
  induction l generalizing v with
  | nil => rfl
  | cons t l ih =>
    simp only [List.foldl_cons, ih, map_fst_addTerm]

lemma map_snd_addTerm (v : Vocab) (t : String)
    (h : v.map Prod.snd = List.range v.length) :
    (addTerm v t).map Prod.snd = List.range (addTerm v t).length := by
  unfold addTerm
  by_cases hs : (idOf v t).isSome = true
  · rw [if_pos hs]; exact h
  · rw [if_neg hs]
    simp only [List.map_append, List.map_cons, List.map_nil, List.length_append,
      List.length_cons, List.length_nil]
    rw [h, ← List.range_succ]

lemma map_snd_foldl_addTerm (l : List String) (v : Vocab)
    (h : v.map Prod.snd = List.range v.length) :
    (l.foldl addTerm v).map Prod.snd = List.range (l.foldl addTerm v).length := by
  induction l generalizing v with
  | nil => exact h
  | cons t l ih =>
    simp only [List.foldl_cons]
    exact ih _ (map_snd_addTerm v t h)

lemma buildVocab_eq_foldl_flatten (docs : List (List String)) :
    buildVocab docs = docs.flatten.foldl addTerm [] := by
  unfold buildVocab
  rw [List.foldl_flatten]

lemma eq_withIds_of_maps (ps : List (String × Nat)) (ks : List String) (n : Nat)
    (hf : ps.map Prod.fst = ks) (hs : ps.map Prod.snd = List.range' n ps.length) :
    ps = withIds n ks := by
  induction ps generalizing ks n with
  | nil =>
    simp only [List.map_nil] at hf
    subst hf
    rfl
  | cons p ps ih =>
    obtain ⟨t, j⟩ := p
    cases ks with
    | nil => simp at hf
    | cons k ks =>
      simp only [List.map_cons, List.cons.injEq, List.length_cons] at hf hs
      rw [List.range'_succ] at hs
      simp only [List.cons.injEq] at hs
      unfold withIds
      rw [List.cons.injEq]
      exact ⟨Prod.ext_iff.mpr ⟨hf.1, hs.1⟩, ih ks (n + 1) hf.2 hs.2⟩

lemma buildVocab_eq (docs : List (List String)) :
    buildVocab docs = withIds 0 (firstSight docs.flatten) := by
  rw [buildVocab_eq_foldl_flatten]
  refine eq_withIds_of_maps _ _ _ ?_ ?_
  · exact map_fst_foldl_addTerm docs.flatten []
  · rw [map_snd_foldl_addTerm docs.flatten [] rfl, List.range_eq_range']

lemma foldl_addKey_nodup (l : List String) (acc : List String) (h : acc.Nodup) :
    (l.foldl (fun acc t => if t ∈ acc then acc else acc ++ [t]) acc).Nodup := by
  induction l generalizing acc with
  | nil => exact h
  | cons t l ih =>
    simp only [List.foldl_cons]
    by_cases ht : t ∈ acc
    · rw [if_pos ht]; exact ih _ h
    · rw [if_neg ht]
      exact ih _ (by simp [List.nodup_append, h, ht])

lemma buildVocab_keys_nodup (docs : List (List String)) :
    ((buildVocab docs).map Prod.fst).Nodup := by
  rw [buildVocab_eq_foldl_flatten, map_fst_foldl_addTerm]
  exact foldl_addKey_nodup _ [] (by simp)

lemma buildVocab_snd_range (docs : List (List String)) :
    (buildVocab docs).map Prod.snd = List.range (buildVocab docs).length := by
  rw [buildVocab_eq_foldl_flatten]
  exact map_snd_foldl_addTerm _ [] rfl

lemma idOf_of_mem (v : Vocab) (hk : (v.map Prod.fst).Nodup) {t : String} {j : Nat}
    (h : (t, j) ∈ v) : idOf v t = some j := by
  induction v with
  | nil => simp at h
  | cons p v ih =>
    obtain ⟨a, b⟩ := p
    simp only [List.map_cons, List.nodup_cons] at hk
    rcases List.mem_cons.mp h with he | hm
    · injection he with h1 h2
      subst h1; subst h2
      unfold idOf
      rw [List.find?_cons_of_pos _ (by simp)]
      rfl
    · have hat : a ≠ t := by
        intro hq
        subst hq
        exact hk.1 (List.mem_map.mpr ⟨(a, j), hm, rfl⟩)
      unfold idOf
      rw [List.find?_cons_of_neg _ (by simp [hat])]
      exact ih hk.2 hm

lemma snd_inj_of_range (v : Vocab) (hs : v.map Prod.snd = List.range v.length)
    {t s : String} {j : Nat} (ht : (t, j) ∈ v) (hsm : (s, j) ∈ v) : t = s := by
  have hnd : (v.map Prod.snd).Nodup := by rw [hs]; exact List.nodup_range _
  have := List.inj_on_of_nodup_map hnd ht hsm rfl
  injection this

lemma idOf_eq_some_iff (v : Vocab) (hk : (v.map Prod.fst).Nodup)
    (hs : v.map Prod.snd = List.range v.length) {t : String} {j : Nat}
    (hm : (t, j) ∈ v) (s : String) : idOf v s = some j ↔ s = t := by
  constructor
  · intro h
    exact snd_inj_of_range v hs (mem_of_idOf v h) hm
  · rintro rfl
    exact idOf_of_mem v hk hm

lemma countRow_getD (v : Vocab) (doc : List String) {j : Nat} (hj : j < v.length) :
    (countRow v doc).getD j 0 = (doc.filter (fun t => idOf v t == some j)).length := by
  unfold countRow
  exact getD_range_map _ hj 0

/-- C1: with an open term vocabulary, `fit`/`fit_transform` assigns each newly
observed term the next sequential id at its first appearance in streaming
order, per-document occurrences are aggregated so that entry `(i, j)` of the
raw tf matrix is the occurrence count of term `j` in document `i`, and the
scenario `[["a","b","a"],["b","c"]]` produces vocabulary `{a:0, b:1, c:2}`
and matrix `[[2,1,0],[0,1,1]]`. -/
theorem c1_open_vocab_first_appearance_and_counts (docs : List (List String)) :
    buildVocab docs = withIds 0 (firstSight docs.flatten) ∧
    (∀ p ∈ buildVocab docs, ∀ i, i < docs.length →
       ((count_terms .opened docs).1.rows.getD i []).getD p.2 0 =
         (docs.getD i []).count p.1) ∧
    count_terms .opened [["a","b","a"],["b","c"]] =
      (⟨3, [[2,1,0],[0,1,1]]⟩, [("a",0),("b",1),("c",2)]) := by
  refine ⟨buildVocab_eq docs, ?_, by decide⟩
  rintro ⟨t, j⟩ hp i hi
  have hsr := buildVocab_snd_range docs
  have hj : j < (buildVocab docs).length := by
    have : j ∈ (buildVocab docs).map Prod.snd := List.mem_map.mpr ⟨(t, j), hp, rfl⟩
    rw [hsr] at this
    exact List.mem_range.mp this
  show ((countMatrix (buildVocab docs) docs).getD i []).getD j 0 = (docs.getD i []).count t
  unfold countMatrix
  rw [getD_map_lt _ _ hi [] [], countRow_getD _ _ hj]
  rw [List.count_eq_countP, List.countP_eq_length_filter]
  congr 1
  apply List.filter_congr
  intro s _
  rw [Bool.eq_iff_iff]
  simp only [beq_iff_eq]
  exact idOf_eq_some_iff (buildVocab docs) (buildVocab_keys_nodup docs) hsr hp s

/-- Witness for C1 at the scenario input. -/
theorem c1_witness :
    ((count_terms .opened [["a","b","a"],["b","c"]]).1.rows.getD 1 []).getD 1 0 =
      ([["a","b","a"],["b","c"]].getD 1 []).count ("b") := by
  exact (c1_open_vocab_first_appearance_and_counts [["a","b","a"],["b","c"]]).2.1
    ("b", 1) (by decide) 1 (by decide)

/-! ### Default configurations -/

/-- The constructor defaults: `weighting='tf'`, `normalize=False`,
`sublinear_tf=False`, `smooth_idf=True`, `min_df=1`, `max_df=1.0`,
`min_ic=0.0`, `max_n_terms=None`. -/
def cfgTf : Config := ⟨.tf, false, false, true, .int 1, .frac 1, 0, none⟩

/-- Constructor defaults except `weighting='tfidf'`. -/
def cfgTfidf : Config := ⟨.tfidf, false, false, true, .int 1, .frac 1, 0, none⟩

/-! ### C7: fixed vocabulary is never mutated -/

/-- C7: on a vectorizer with a fixed (externally supplied) vocabulary,
counting returns the vocabulary unchanged, `_filter_terms` is a no-op
whatever the configured `min_df`/`max_df`/`min_ic`/`max_n_terms`, and any
successful `fit_transform` leaves the vocabulary mapping exactly as
supplied. -/
theorem c7_fixed_vocab_never_mutated (cfg : Config) (docs : List (List String))
    (V : Vocab) :
    (count_terms (.fixed V) docs).2 = V ∧
    (∀ m v, filter_terms cfg true m v = .ok (m, v)) ∧
    (∀ r, fit_transform cfg (.fixed V) docs = .ok r → r.2 = V) := by
  refine ⟨rfl, fun m v => rfl, ?_⟩
  intro r h
  have hstep : fit_transform cfg (.fixed V) docs =
      match reweight_values cfg ⟨V.length, countMatrix V docs⟩ with
      | .error e => .error e
      | .ok m3 => .ok (m3, V) := rfl
  rw [hstep] at h
  cases hrw : reweight_values cfg ⟨V.length, countMatrix V docs⟩ with
  | error e =>
    rw [hrw] at h
    simp at h
  | ok m3 =>
    rw [hrw] at h
    simp only [Except.ok.injEq] at h
    rw [← h]

/-- Witness for C7: concrete fixed-vocabulary fit. -/
theorem c7_witness :
    ∃ r, fit_transform cfgTf (.fixed [("x", 0)]) [["x"]] = .ok r ∧ r.2 = [("x", 0)] := by
  have h : fit_transform cfgTf (.fixed [("x", 0)]) [["x"]] =
      .ok (toR ⟨1, [[1]]⟩, [("x", 0)]) := rfl
  exact ⟨_, h, (c7_fixed_vocab_never_mutated cfgTf [["x"]] [("x", 0)]).2.2 _ h⟩

/-! ### C8: the id_to_term cache guard -/

/-- C8 (code bug in the source): the guard
`len(self.id_to_term_) != self.vocabulary_terms` compares an int with a
dict, so it is always true and the inverse mapping is rebuilt on every
read; the returned value therefore always equals the exact inverse of the
forward mapping, but the cached value is never reused, even when the
forward mapping's size has not changed since the cache was built. -/
theorem c8_inverse_rebuilt_every_read :
    (∀ (cache : List (Nat × String)) (v : Vocab),
       id_to_term_read cache v = (invVocab v, invVocab v)) ∧
    (∀ (cache : List (Nat × String)) (v : Vocab), lenNeqDict cache.length v = true) ∧
    lenNeqDict (invVocab [("a", 0)]).length [("a", 0)] = true := by
  exact ⟨fun _ _ => rfl, fun _ _ => rfl, rfl⟩

/-! ### C2: binary weighting and the later pipeline steps -/

/-- C2 counterexample: with `weighting='binary'` and `normalize=True`, the
re-weighted matrix is not the binarized matrix — L2 normalization is still
applied (the `if self.normalize` block sits outside the binary branch). -/
theorem c2_counterexample :
    reweight_values ⟨.binary, true, false, true, .int 1, .frac 1, 0, none⟩ ⟨2, [[1, 1]]⟩ ≠
      .ok (toR (binarize ⟨2, [[1, 1]]⟩)) := by
  intro h
  have hl : reweight_values ⟨.binary, true, false, true, .int 1, .frac 1, 0, none⟩
      ⟨2, [[1, 1]]⟩ = .ok (l2normalizeRows (toR (binarize ⟨2, [[1, 1]]⟩))) := rfl
  rw [hl] at h
  have h2 : l2normalizeRows (toR (binarize ⟨2, [[1, 1]]⟩)) = toR (binarize ⟨2, [[1, 1]]⟩) :=
    Except.ok.inj h
  have hc : toR (binarize ⟨2, [[1, 1]]⟩) = ⟨2, [[(1 : ℝ), 1]]⟩ := by
    simp [toR, binarize]
  rw [hc] at h2
  have hrow : l2row [(1 : ℝ), 1] = [(1 : ℝ), 1] := by
    have := congrArg RMat.rows h2
    simpa [l2normalizeRows] using this
  have hs : Real.sqrt (((1 : ℝ)) ^ 2 + (((1 : ℝ)) ^ 2 + 0)) = Real.sqrt 2 := by norm_num
  have hne : Real.sqrt 2 ≠ 0 := by
    have : (0 : ℝ) < Real.sqrt 2 := Real.sqrt_pos.mpr (by norm_num)
    exact ne_of_gt this
  unfold l2row at hrow
  simp only [List.map_cons, List.map_nil, List.sum_cons, List.sum_nil, hs] at hrow
  rw [if_neg hne] at hrow
  simp only [List.map_cons, List.map_nil, List.cons.injEq] at hrow
  have h1 : (1 : ℝ) / Real.sqrt 2 = 1 := hrow.1
  have hsec : Real.sqrt 2 = 1 := by
    field_simp at h1
    linarith [h1]
  have : (2 : ℝ) = 1 := by
    have := Real.sqrt_eq_one.mp hsec
    norm_num at this
  norm_num at this

/-- C2 amended: under binary weighting every stored non-zero value is set
to 1 and neither sublinear scaling nor idf multiplication runs, but the
final L2 row normalization is still applied whenever `normalize=True`. -/
theorem c2_binary_weighting_amended (m : Mat) (nrm sub smo : Bool)
    (mindf maxdf : DfIn) (minic : ℚ) (maxn : Option Nat) :
    reweight_values ⟨.binary, nrm, sub, smo, mindf, maxdf, minic, maxn⟩ m =
      .ok (if nrm then l2normalizeRows (toR (binarize m)) else toR (binarize m)) := rfl

/-! ### C5: fixed-vocabulary transform shape -/

lemma l2row_length (r : List ℝ) : (l2row r).length = r.length := by
  simp only [l2row]
  split <;> simp

lemma countRow_length (v : Vocab) (doc : List String) : (countRow v doc).length = v.length := by
  simp [countRow]

lemma reweight_values_rows_map (cfg : Config) (m : Mat)
    (hw : cfg.weighting ≠ Weighting.tfidf) :
    ∃ g : List Nat → List ℝ, reweight_values cfg m = .ok ⟨m.nCols, m.rows.map g⟩ ∧
      ∀ r : List Nat, (g r).length = r.length := by
  obtain ⟨w, nrm, sub, smo, mdf, xdf, mic, mxn⟩ := cfg
  cases w with
  | tfidf => exact absurd rfl hw
  | binary =>
    cases nrm with
    | true =>
      refine ⟨fun r =>
        l2row ((r.map (fun v => if v = 0 then 0 else 1)).map (fun (v : Nat) => (v : ℝ))),
        ?_, ?_⟩
      · have h1 : reweight_values ⟨.binary, true, sub, smo, mdf, xdf, mic, mxn⟩ m =
            .ok (l2normalizeRows (toR (binarize m))) := rfl
        rw [h1]
        unfold l2normalizeRows toR binarize
        simp only [List.map_map, Except.ok.injEq, RMat.mk.injEq, true_and]
        apply List.map_congr_left
        intro r _
        simp [Function.comp_apply, List.map_map]
      · intro r
        rw [l2row_length]
        simp
    | false =>
      refine ⟨fun r =>
        (r.map (fun v => if v = 0 then 0 else 1)).map (fun (v : Nat) => (v : ℝ)), ?_, ?_⟩
      · have h1 : reweight_values ⟨.binary, false, sub, smo, mdf, xdf, mic, mxn⟩ m =
            .ok (toR (binarize m)) := rfl
        rw [h1]
        unfold toR binarize
        simp only [List.map_map, Except.ok.injEq, RMat.mk.injEq, true_and]
        apply List.map_congr_left
        intro r _
        simp [Function.comp_apply, List.map_map]
      · intro r
        simp
  | tf =>
    cases sub with
    | true =>
      cases nrm with
      | true =>
        refine ⟨fun r =>
          l2row (r.map (fun (v : Nat) => if v = 0 then (0 : ℝ) else 1 + Real.log (v : ℝ))),
          ?_, ?_⟩
        · have h1 : reweight_values ⟨.tf, true, true, smo, mdf, xdf, mic, mxn⟩ m =
              .ok (l2normalizeRows (sublinearize m)) := rfl
          rw [h1]
          unfold l2normalizeRows sublinearize
          simp only [List.map_map, Except.ok.injEq, RMat.mk.injEq, true_and]
          apply List.map_congr_left
          intro r _
          simp [Function.comp_apply]
        · intro r
          rw [l2row_length]
          simp
      | false =>
        refine ⟨fun r =>
          r.map (fun (v : Nat) => if v = 0 then (0 : ℝ) else 1 + Real.log (v : ℝ)), ?_, ?_⟩
        · exact rfl
        · intro r
          simp
    | false =>
      cases nrm with
      | true =>
        refine ⟨fun r => l2row (r.map (fun (v : Nat) => (v : ℝ))), ?_, ?_⟩
        · have h1 : reweight_values ⟨.tf, true, false, smo, mdf, xdf, mic, mxn⟩ m =
              .ok (l2normalizeRows (toR m)) := rfl
          rw [h1]
          unfold l2normalizeRows toR
          simp only [List.map_map, Except.ok.injEq, RMat.mk.injEq, true_and]
          apply List.map_congr_left
          intro r _
          simp [Function.comp_apply]
        · intro r
          rw [l2row_length]
          simp
      | false =>
        refine ⟨fun r => r.map (fun (v : Nat) => (v : ℝ)), ?_, ?_⟩
        · exact rfl
        · intro r
          simp

/-- C5 counterexample: under tfidf weighting, transforming an input with no
in-vocabulary occurrences (here: the empty input) does not produce a
matrix at all — it fails with the empty-matrix error. -/
theorem c5_counterexample :
    transform cfgTfidf [("x", 0), ("y", 1)] [] = .error .emptyMatrix := rfl

/-- C5 amended: for a fixed non-empty vocabulary and a non-idf weighting
(tf or binary, any normalize/sublinear flags), `transform` succeeds on
every input — including the empty input and documents of only
out-of-vocabulary terms — with a matrix of exactly `len(V)` columns and
one row per document; out-of-vocabulary terms are silently dropped, as in
the concrete scenario `{"x":0,"y":1}` / `[["x","z"]]` ↦ `[[1,0]]`.  Under
tfidf weighting the same holds except when the counted matrix has no
stored entries, in which case `transform` fails (see the counterexample
and C10). -/
theorem c5_fixed_vocab_transform_amended (cfg : Config) (V : Vocab)
    (docs : List (List String)) (hV : V ≠ []) (hw : cfg.weighting ≠ Weighting.tfidf) :
    (∃ M, transform cfg V docs = .ok M ∧ M.nCols = V.length ∧
       M.rows.length = docs.length ∧ ∀ r ∈ M.rows, r.length = V.length) ∧
    transform cfgTf [("x", 0), ("y", 1)] [["x", "z"]] = .ok (toR ⟨2, [[1, 0]]⟩) := by
  constructor
  · obtain ⟨g, hg, hlen⟩ := reweight_values_rows_map cfg (count_terms (.fixed V) docs).1 hw
    have ht : transform cfg V docs =
        .ok ⟨(count_terms (.fixed V) docs).1.nCols, (count_terms (.fixed V) docs).1.rows.map g⟩ := by
      unfold transform
      rw [if_neg (by simpa using hV)]
      exact hg
    refine ⟨_, ht, rfl, ?_, ?_⟩
    · show ((countMatrix V docs).map g).length = docs.length
      simp [countMatrix]
    · intro r hr
      obtain ⟨r0, hr0, hre⟩ := List.mem_map.mp hr
      obtain ⟨doc, _, hdoc⟩ := List.mem_map.mp hr0
      rw [← hre, hlen r0, ← hdoc, countRow_length]
  · rfl

/-- Witness for C5 at the concrete scenario. -/
theorem c5_witness :
    ∃ M, transform cfgTf [("x", 0), ("y", 1)] [["x", "z"]] = .ok M ∧ M.nCols = 2 ∧
      M.rows.length = 1 ∧ ∀ r ∈ M.rows, r.length = 2 := by
  obtain ⟨⟨M, h1, h2, h3, h4⟩, _⟩ :=
    c5_fixed_vocab_transform_amended cfgTf [("x", 0), ("y", 1)] [["x", "z"]]
      (by decide) (by decide)
  exact ⟨M, h1, h2, h3, h4⟩

/-! ### Mask and renumbering lemmas (document-frequency filtering) -/

lemma length_dfBoundsMask (dfs : List Nat) (n : Nat) (a b : Int) :
    (dfBoundsMask dfs n a b).length = dfs.length := by
  simp [dfBoundsMask]

lemma length_maskFromSel (n : Nat) (sel : List Nat) : (maskFromSel n sel).length = n := by
  simp [maskFromSel]

lemma mem_trueIdxs {mask : List Bool} {j : Nat} :
    j ∈ trueIdxs mask ↔ j < mask.length ∧ mask.getD j false = true := by
  simp [trueIdxs, List.mem_filter, List.mem_range]

lemma countTrue_cons (b : Bool) (l : List Bool) :
    countTrue (b :: l) = countTrue l + if b then 1 else 0 := by
  simp [countTrue, List.countP_cons]

lemma trueIdxs_cons (b : Bool) (l : List Bool) :
    trueIdxs (b :: l) =
      if b then 0 :: (trueIdxs l).map (· + 1) else (trueIdxs l).map (· + 1) := by
  unfold trueIdxs
  rw [List.length_cons, List.range_succ_eq_map, List.filter_cons]
  have h1 : List.filter (fun j => (b :: l).getD j false) (List.map Nat.succ (List.range l.length))
      = List.map Nat.succ (List.filter (fun j => l.getD j false) (List.range l.length)) := by
    rw [List.filter_map]
    exact congrArg _ (List.filter_congr (fun j _ => by
      simp [Function.comp, List.getD_cons_succ]))
  rw [h1]
  simp only [List.getD_cons_zero]

lemma countTrue_take_pos {l : List Bool} {j : Nat} (hj : j < l.length)
    (ht : l.getD j false = true) : 0 < countTrue (l.take (j + 1)) := by
  induction l generalizing j with
  | nil => simp at hj
  | cons b l ih =>
    cases j with
    | zero =>
      simp only [List.getD_cons_zero] at ht
      subst ht
      simp [countTrue_cons]
    | succ j =>
      rw [List.getD_cons_succ] at ht
      have hpos := ih (by simpa using hj) ht
      rw [List.take_succ_cons, countTrue_cons]
      exact Nat.lt_of_lt_of_le hpos (Nat.le_add_right _ _)

lemma trueIdxs_map_newIdx (mask : List Bool) :
    (trueIdxs mask).map (newIdx mask) = List.range (countTrue mask) := by
  induction mask with
  | nil => rfl
  | cons b l ih =>
    rw [trueIdxs_cons]
    cases b with
    | true =>
      rw [if_pos rfl, List.map_cons, List.map_map]
      have h0 : newIdx (true :: l) 0 = 0 := rfl
      rw [h0]
      have hmap : (trueIdxs l).map (newIdx (true :: l) ∘ (· + 1)) =
          (trueIdxs l).map (fun j => newIdx l j + 1) := by
        apply List.map_congr_left
        intro j hj
        obtain ⟨hjl, hjt⟩ := mem_trueIdxs.mp hj
        simp only [Function.comp_apply]
        unfold newIdx
        rw [List.take_succ_cons, countTrue_cons, if_pos rfl]
        have hpos := countTrue_take_pos hjl hjt
        omega
      rw [hmap]
      have hmm : (trueIdxs l).map (fun j => newIdx l j + 1) =
          ((trueIdxs l).map (newIdx l)).map (· + 1) := by
        rw [List.map_map]
        rfl
      rw [hmm, ih, countTrue_cons]
      simp [List.range_succ_eq_map, Nat.succ_eq_add_one]
    | false =>
      rw [if_neg (by simp), List.map_map]
      have hmap : (trueIdxs l).map (newIdx (false :: l) ∘ (· + 1)) =
          (trueIdxs l).map (newIdx l) := by
        apply List.map_congr_left
        intro j _
        simp only [Function.comp_apply]
        unfold newIdx
        rw [List.take_succ_cons, countTrue_cons, if_neg (by simp)]
        omega
      rw [hmap, ih, countTrue_cons]
      simp

lemma length_trueIdxs (mask : List Bool) : (trueIdxs mask).length = countTrue mask := by
  induction mask with
  | nil => rfl
  | cons b l ih =>
    rw [trueIdxs_cons, countTrue_cons]
    cases b with
    | true => simp [ih]
    | false => simp [ih]

lemma remapVocab_map_snd (v : Vocab) (mask : List Bool) :
    (remapVocab v mask).map Prod.snd =
      ((v.map Prod.snd).filter (fun j => mask.getD j false)).map (newIdx mask) := by
  induction v with
  | nil => rfl
  | cons p v ih =>
    cases hm : mask.getD p.2 false with
    | true =>
      have hstep : remapVocab (p :: v) mask = (p.1, newIdx mask p.2) :: remapVocab v mask := by
        unfold remapVocab
        rw [List.filterMap_cons, if_pos hm]
      have hrhs : (((p :: v).map Prod.snd).filter (fun j => mask.getD j false)).map (newIdx mask)
          = newIdx mask p.2 ::
            ((v.map Prod.snd).filter (fun j => mask.getD j false)).map (newIdx mask) := by
        rw [List.map_cons, List.filter_cons, if_pos hm, List.map_cons]
      rw [hstep, hrhs, List.map_cons, ih]
    | false =>
      have hstep : remapVocab (p :: v) mask = remapVocab v mask := by
        unfold remapVocab
        rw [List.filterMap_cons, if_neg (by simp only [hm]; exact Bool.false_ne_true)]
      have hrhs : (((p :: v).map Prod.snd).filter (fun j => mask.getD j false))
          = ((v.map Prod.snd).filter (fun j => mask.getD j false)) := by
        rw [List.map_cons, List.filter_cons,
          if_neg (by simp only [hm]; exact Bool.false_ne_true)]
      rw [hstep, hrhs, ih]

lemma dfOf_sliceCols (m : Mat) (kept : List Nat) {j : Nat} (hj : j < kept.length) :
    dfOf (sliceCols m kept) j = dfOf m (kept.getD j 0) := by
  unfold dfOf sliceCols
  rw [List.countP_map]
  apply List.countP_congr
  intro r _
  simp only [Function.comp_apply]
  rw [getD_map_lt (fun c => r.getD c 0) kept hj 0 0]

lemma dfOf_le_rows (m : Mat) (j : Nat) : dfOf m j ≤ m.rows.length :=
  List.countP_le_length _

lemma dfBoundsMask_getD {dfs : List Nat} {n : Nat} {maxDc minDc : Int} {j : Nat}
    (hj : j < dfs.length) :
    ((dfBoundsMask dfs n maxDc minDc).getD j false = true) ↔
      ((maxDc < (n : Int) → (dfs.getD j 0 : Int) ≤ maxDc) ∧
       (1 < minDc → minDc ≤ (dfs.getD j 0 : Int))) := by
  unfold dfBoundsMask
  rw [getD_map_lt _ dfs hj false 0]
  simp only [Bool.and_eq_true, Bool.or_eq_true, Bool.not_eq_true', decide_eq_true_eq,
    decide_eq_false_iff_not]
  constructor
  · rintro ⟨h1, h2⟩
    exact ⟨fun hc => h1.resolve_left (fun h => h hc),
           fun hc => h2.resolve_left (fun h => h hc)⟩
  · rintro ⟨h1, h2⟩
    constructor
    · by_cases hc : maxDc < (n : Int)
      · exact Or.inr (h1 hc)
      · exact Or.inl hc
    · by_cases hc : 1 < minDc
      · exact Or.inr (h2 hc)
      · exact Or.inl hc

lemma maskFromSel_getD {n : Nat} {sel : List Nat} {j : Nat} (hj : j < n) :
    (maskFromSel n sel).getD j false = decide (j ∈ sel) := by
  unfold maskFromSel
  exact getD_range_map _ hj false

/-! ### Stable argsort and top-k selection lemmas -/

lemma argLe_total [LinearOrder α] [Zero α] (xs : List α) :
    ∀ i j, argLe xs i j ∨ argLe xs j i := by
  intro i j
  rcases lt_trichotomy (xs.getD i 0) (xs.getD j 0) with h | h | h
  · exact Or.inl (Or.inl h)
  · rcases le_total i j with hij | hij
    · exact Or.inl (Or.inr ⟨h, hij⟩)
    · exact Or.inr (Or.inr ⟨h.symm, hij⟩)
  · exact Or.inr (Or.inl h)

instance [LinearOrder α] [Zero α] (xs : List α) : IsTotal Nat (argLe xs) :=
  ⟨argLe_total xs⟩

lemma argLe_trans [LinearOrder α] [Zero α] (xs : List α) :
    ∀ i j k, argLe xs i j → argLe xs j k → argLe xs i k := by
  intro i j k h1 h2
  rcases h1 with h1 | ⟨h1, h1'⟩
  · rcases h2 with h2 | ⟨h2, h2'⟩
    · exact Or.inl (h1.trans h2)
    · exact Or.inl (h1.trans_le h2.le)
  · rcases h2 with h2 | ⟨h2, h2'⟩
    · exact Or.inl (h1.le.trans_lt h2)
    · exact Or.inr ⟨h1.trans h2, h1'.trans h2'⟩

instance [LinearOrder α] [Zero α] (xs : List α) : IsTrans Nat (argLe xs) :=
  ⟨fun i j k => argLe_trans xs i j k⟩

lemma argsortAsc_perm [LinearOrder α] [Zero α] (xs : List α) :
    (argsortAsc xs).Perm (List.range xs.length) :=
  List.perm_insertionSort _ _

lemma argsortAsc_sorted [LinearOrder α] [Zero α] (xs : List α) :
    (argsortAsc xs).Sorted (argLe xs) :=
  List.sorted_insertionSort _ _

lemma topSel_spec [LinearOrder α] [Zero α] (xs : List α) (mask : List Bool) (k : Nat)
    (hk : k ≤ (trueIdxs mask).length) :
    (topSel xs mask k).length = k ∧
    (topSel xs mask k).Nodup ∧
    (∀ i ∈ topSel xs mask k, i ∈ trueIdxs mask) ∧
    (∀ i ∈ topSel xs mask k, ∀ j ∈ trueIdxs mask, j ∉ topSel xs mask k →
       xs.getD j 0 < xs.getD i 0 ∨ (xs.getD j 0 = xs.getD i 0 ∧ j < i)) := by
  set kept := trueIdxs mask with hkept
  set xsM := kept.map (fun i => xs.getD i 0) with hxsM
  set ras := (argsortAsc xsM).reverse with hras
  have hsel : topSel xs mask k = (ras.take k).map (fun p => kept.getD p 0) := rfl
  have hlenM : xsM.length = kept.length := by rw [hxsM, List.length_map]
  have hperm : ras.Perm (List.range kept.length) := by
    rw [hras]
    exact (List.reverse_perm _).trans (hlenM ▸ argsortAsc_perm xsM)
  have hndras : ras.Nodup := hperm.nodup_iff.mpr (List.nodup_range _)
  have hmemras : ∀ p ∈ ras, p < kept.length := by
    intro p hp
    exact List.mem_range.mp (hperm.mem_iff.mp hp)
  have hS : List.Pairwise (fun a b => argLe xsM b a) ras := by
    rw [hras, List.pairwise_reverse]
    exact argsortAsc_sorted xsM
  have hlras : ras.length = kept.length := hperm.length_eq.trans (by simp)
  have hlen_take : (ras.take k).length = k := by
    rw [List.length_take, hlras]
    exact Nat.min_eq_left hk
  have htd := List.take_append_drop k ras
  have hcross : ∀ p ∈ ras.take k, ∀ q ∈ ras.drop k, argLe xsM q p := by
    have hS' := hS
    rw [← htd] at hS'
    exact (List.pairwise_append.mp hS').2.2
  have hdisj : ∀ p ∈ ras.take k, p ∉ ras.drop k := by
    have hnd' := hndras
    rw [← htd] at hnd'
    intro p hp hq
    exact (List.nodup_append.mp hnd').2.2 hp hq
  have hkept_sorted : List.Pairwise (· < ·) kept := by
    rw [hkept]
    unfold trueIdxs
    exact List.Pairwise.filter _ (List.pairwise_lt_range _)
  have hmono : ∀ {q p : Nat}, q < p → (hp : p < kept.length) → kept.getD q 0 < kept.getD p 0 := by
    intro q p hqp hp
    have hq : q < kept.length := hqp.trans hp
    rw [List.getD_eq_getElem _ _ hq, List.getD_eq_getElem _ _ hp]
    have hrel := List.Sorted.rel_get_of_lt hkept_sorted
      (a := ⟨q, hq⟩) (b := ⟨p, hp⟩) (by exact hqp)
    simpa [List.get_eq_getElem] using hrel
  have hmem_take : ∀ p ∈ ras.take k, p < kept.length := by
    intro p hp
    exact hmemras p ((List.take_sublist k ras).subset hp)
  refine ⟨?_, ?_, ?_, ?_⟩
  · rw [hsel, List.length_map, hlen_take]
  · rw [hsel]
    apply List.Nodup.map_on ?_ (List.Nodup.sublist (List.take_sublist k ras) hndras)
    intro x hx y hy hxy
    by_contra hne
    rcases lt_or_gt_of_ne hne with hlt | hgt
    · exact absurd hxy (ne_of_lt (hmono hlt (hmem_take y hy)))
    · exact absurd hxy.symm (ne_of_lt (hmono hgt (hmem_take x hx)))
  · intro i hi
    rw [hsel] at hi
    obtain ⟨p, hp, hpi⟩ := List.mem_map.mp hi
    have hpl : p < kept.length := hmem_take p hp
    rw [← hpi, List.getD_eq_getElem _ _ hpl]
    exact List.getElem_mem hpl
  · intro i hi j hj hjn
    rw [hsel] at hi hjn
    obtain ⟨p, hp, hpi⟩ := List.mem_map.mp hi
    have hpl : p < kept.length := hmem_take p hp
    obtain ⟨n, hn⟩ := List.mem_iff_get.mp hj
    have hql : (n : Nat) < kept.length := n.isLt
    have hqj : kept.getD (n : Nat) 0 = j := by
      rw [List.getD_eq_getElem _ _ hql, ← List.get_eq_getElem]
      exact hn
    have hqras : (n : Nat) ∈ ras := hperm.mem_iff.mpr (List.mem_range.mpr hql)
    have hqdrop : (n : Nat) ∈ ras.drop k := by
      have hqtd : (n : Nat) ∈ ras.take k ++ ras.drop k := by
        rw [htd]
        exact hqras
      rcases List.mem_append.mp hqtd with hq1 | hq2
      · exfalso
        exact hjn (List.mem_map.mpr ⟨(n : Nat), hq1, hqj⟩)
      · exact hq2
    have harg := hcross p hp (n : Nat) hqdrop
    have hxq : xsM.getD (n : Nat) 0 = xs.getD j 0 := by
      rw [hxsM, getD_map_lt (fun i => xs.getD i 0) kept hql 0 0, hqj]
    have hxp : xsM.getD p 0 = xs.getD i 0 := by
      rw [hxsM, getD_map_lt (fun i => xs.getD i 0) kept hpl 0 0, hpi]
    rcases harg with hlt | ⟨heq, hle⟩
    · left
      rw [← hxq, ← hxp]
      exact hlt
    · have hqp : (n : Nat) ≠ p := fun he => (hdisj p hp) (he ▸ hqdrop)
      have hqlt : (n : Nat) < p := lt_of_le_of_ne hle hqp
      right
      constructor
      · rw [← hxq, ← hxp]
        exact heq
      · have hj_lt := hmono hqlt hpl
        rw [hqj, hpi] at hj_lt
        exact hj_lt

lemma map_getD_range (l : List Nat) :
    (List.range l.length).map (fun p => l.getD p 0) = l := by
  apply List.ext_getElem
  · simp
  · intro i h1 h2
    rw [List.getElem_map, List.getElem_range, List.getD_eq_getElem l 0 h2]

/-- The executable model's untruncated selection is one admissible outcome
of the documented (unstable) descending argsort contract. -/
lemma fullSel_admissible (xs : List Nat) (mask : List Bool) :
    DescArgsortOf xs (trueIdxs mask) (fullSel xs mask) := by
  unfold DescArgsortOf fullSel
  set kept := trueIdxs mask with hkept
  set xsM := kept.map (fun i => xs.getD i 0) with hxsM
  set ras := (argsortAsc xsM).reverse with hras
  have hlenM : xsM.length = kept.length := by rw [hxsM, List.length_map]
  have hperm : ras.Perm (List.range kept.length) := by
    rw [hras]
    exact (List.reverse_perm _).trans (hlenM ▸ argsortAsc_perm xsM)
  have hmemras : ∀ p ∈ ras, p < kept.length := fun p hp =>
    List.mem_range.mp (hperm.mem_iff.mp hp)
  constructor
  · have h1 : (ras.map (fun p => kept.getD p 0)).Perm
        ((List.range kept.length).map (fun p => kept.getD p 0)) := hperm.map _
    rw [map_getD_range kept] at h1
    exact h1
  · have hS : List.Pairwise (fun a b => argLe xsM b a) ras := by
      rw [hras, List.pairwise_reverse]
      exact argsortAsc_sorted xsM
    rw [List.pairwise_map]
    refine hS.imp_of_mem ?_
    intro a b ha hb hab
    have hal : a < kept.length := hmemras a ha
    have hbl : b < kept.length := hmemras b hb
    have hxa : xsM.getD a 0 = xs.getD (kept.getD a 0) 0 := by
      rw [hxsM]
      exact getD_map_lt (fun i => xs.getD i 0) kept hal 0 0
    have hxb : xsM.getD b 0 = xs.getD (kept.getD b 0) 0 := by
      rw [hxsM]
      exact getD_map_lt (fun i => xs.getD i 0) kept hbl 0 0
    rcases hab with hlt | ⟨heq, h⟩
    · rw [← hxa, ← hxb]
      exact le_of_lt hlt
    · rw [← hxa, ← hxb]
      exact le_of_eq heq

instance {ε α : Type _} [DecidableEq ε] [DecidableEq α] : DecidableEq (Except ε α)
  | .error e, .error f =>
    if h : e = f then .isTrue (by rw [h]) else .isFalse (by simp [h])
  | .error _, .ok _ => .isFalse (by simp)
  | .ok _, .error _ => .isFalse (by simp)
  | .ok a, .ok b =>
    if h : a = b then .isTrue (by rw [h]) else .isFalse (by simp [h])

lemma trueIdxs_maskFromSel (n : Nat) (sel : List Nat) :
    trueIdxs (maskFromSel n sel) = (List.range n).filter (fun j => decide (j ∈ sel)) := by
  unfold trueIdxs
  rw [length_maskFromSel]
  apply List.filter_congr
  intro j hj
  rw [maskFromSel_getD (List.mem_range.mp hj)]

lemma length_filter_mem_range {sel : List Nat} {n : Nat} (hnd : sel.Nodup)
    (hsub : ∀ i ∈ sel, i < n) :
    ((List.range n).filter (fun j => decide (j ∈ sel))).length = sel.length := by
  have h1 : ((List.range n).filter (fun j => decide (j ∈ sel))).Nodup :=
    List.Pairwise.filter _ (List.nodup_range n)
  have h2 : ((List.range n).filter (fun j => decide (j ∈ sel))).toFinset = sel.toFinset := by
    ext a
    simp only [List.mem_toFinset, List.mem_filter, List.mem_range, decide_eq_true_eq,
      and_iff_right_iff_imp]
    exact fun ha => hsub a ha
  rw [← List.toFinset_card_of_nodup h1, h2, List.toFinset_card_of_nodup hnd]

lemma get_doc_freqs_ok (m : Mat) (hnz : ¬ nnz m = 0) :
    get_doc_freqs m = .ok ((List.range m.nCols).map (dfOf m)) := by
  unfold get_doc_freqs
  rw [if_neg hnz]

lemma get_term_freqs_ok (m : Mat) (hnz : ¬ nnz m = 0) :
    get_term_freqs m = .ok ((List.range m.nCols).map (tfOf m)) := by
  unfold get_term_freqs
  rw [if_neg hnz]

/-- Characterization of every successful run of the non-short-circuited
document-frequency filter: the output is a column slice and vocabulary
remap along one boolean mask whose kept columns all satisfy the
document-frequency bounds mask, and which under a binding `max_n_terms`
surplus is exactly the top-k selection mask. -/
lemma filter_terms_by_df_ok_elim {m : Mat} {v : Vocab} {maxDf minDf : DfIn}
    {maxN : Option Nat} {m' : Mat} {v' : Vocab}
    (hsc : shortCircuitDf maxDf minDf maxN = false)
    (hok : filter_terms_by_df m v maxDf minDf maxN = .ok (m', v')) :
    ∃ mask : List Bool,
      mask.length = m.nCols ∧
      (∀ j, j < m.nCols → mask.getD j false = true →
        (dfBoundsMask ((List.range m.nCols).map (dfOf m)) m.rows.length
           (resolveDf maxDf m.rows.length) (resolveDf minDf m.rows.length)).getD j false
          = true) ∧
      m' = sliceCols m (trueIdxs mask) ∧ v' = remapVocab v mask ∧
      (∀ k, maxN = some k →
        k < countTrue (dfBoundsMask ((List.range m.nCols).map (dfOf m)) m.rows.length
          (resolveDf maxDf m.rows.length) (resolveDf minDf m.rows.length)) →
        mask = maskFromSel m.nCols (topSel ((List.range m.nCols).map (tfOf m))
          (dfBoundsMask ((List.range m.nCols).map (dfOf m)) m.rows.length
            (resolveDf maxDf m.rows.length) (resolveDf minDf m.rows.length)) k)) := by
  by_cases hneg : (maxDf.isNeg || minDf.isNeg) = true
  · exfalso
    have hchain : filter_terms_by_df m v maxDf minDf maxN = .error .negativeBounds := by
      unfold filter_terms_by_df
      rw [hsc]
      simp only [Bool.false_eq_true, if_false]
      rw [if_pos hneg]
    rw [hchain] at hok
    exact absurd hok (by simp)
  · by_cases hcf : resolveDf maxDf m.rows.length < resolveDf minDf m.rows.length
    · exfalso
      have hchain : filter_terms_by_df m v maxDf minDf maxN = .error .boundsConflict := by
        unfold filter_terms_by_df
        rw [hsc]
        simp only [Bool.false_eq_true, if_false]
        rw [if_neg hneg, if_pos hcf]
      rw [hchain] at hok
      exact absurd hok (by simp)
    · by_cases hnz : nnz m = 0
      · exfalso
        have hdfe : get_doc_freqs m = .error .emptyMatrix := by
          unfold get_doc_freqs
          rw [if_pos hnz]
        have hchain : filter_terms_by_df m v maxDf minDf maxN = .error .emptyMatrix := by
          unfold filter_terms_by_df
          rw [hsc]
          simp only [Bool.false_eq_true, if_false]
          rw [if_neg hneg, if_neg hcf, hdfe]
        rw [hchain] at hok
        exact absurd hok (by simp)
      · have hdf := get_doc_freqs_ok m hnz
        set mask1 := dfBoundsMask ((List.range m.nCols).map (dfOf m)) m.rows.length
          (resolveDf maxDf m.rows.length) (resolveDf minDf m.rows.length) with hmask1
        have hlen1 : mask1.length = m.nCols := by
          rw [hmask1, length_dfBoundsMask, List.length_map, List.length_range]
        cases maxN with
        | none =>
          have hchain : filter_terms_by_df m v maxDf minDf none =
              (if (trueIdxs mask1).isEmpty then Except.error VsmErr.noTermsRemain
               else .ok (sliceCols m (trueIdxs mask1), remapVocab v mask1)) := by
            unfold filter_terms_by_df
            rw [hsc]
            simp only [Bool.false_eq_true, if_false]
            rw [if_neg hneg, if_neg hcf, hdf]
          by_cases hemp : (trueIdxs mask1).isEmpty = true
          · rw [hchain, if_pos hemp] at hok
            exact absurd hok (by simp)
          · rw [hchain, if_neg hemp] at hok
            have hpair := Except.ok.inj hok
            refine ⟨mask1, hlen1, fun j _ ht => ht, ?_, ?_, ?_⟩
            · exact (congrArg Prod.fst hpair).symm
            · exact (congrArg Prod.snd hpair).symm
            · intro k hk
              exact absurd hk (by simp)
        | some k =>
          have h1 : filter_terms_by_df m v maxDf minDf (some k) =
              (match (if k < countTrue mask1 then
                  (match get_term_freqs m with
                   | .error e => .error e
                   | .ok tfs => .ok (maskFromSel m.nCols (topSel tfs mask1 k)))
                else .ok mask1 : Except VsmErr (List Bool)) with
               | .error e => .error e
               | .ok mask =>
                 if (trueIdxs mask).isEmpty then Except.error VsmErr.noTermsRemain
                 else .ok (sliceCols m (trueIdxs mask), remapVocab v mask)) := by
            unfold filter_terms_by_df
            rw [hsc]
            simp only [Bool.false_eq_true, if_false]
            rw [if_neg hneg, if_neg hcf, hdf]
          by_cases hsur : k < countTrue mask1
          · have htf := get_term_freqs_ok m hnz
            rw [if_pos hsur, htf] at h1
            set sel := topSel ((List.range m.nCols).map (tfOf m)) mask1 k with hselv
            set mask2 := maskFromSel m.nCols sel with hmask2
            have h2 : filter_terms_by_df m v maxDf minDf (some k) =
                (if (trueIdxs mask2).isEmpty then Except.error VsmErr.noTermsRemain
                 else .ok (sliceCols m (trueIdxs mask2), remapVocab v mask2)) := h1
            by_cases hemp : (trueIdxs mask2).isEmpty = true
            · rw [h2, if_pos hemp] at hok
              exact absurd hok (by simp)
            · rw [h2, if_neg hemp] at hok
              have hpair := Except.ok.inj hok
              refine ⟨mask2, ?_, ?_, ?_, ?_, ?_⟩
              · rw [hmask2, length_maskFromSel]
              · intro j hj ht
                rw [hmask2, maskFromSel_getD hj] at ht
                have hjsel : j ∈ sel := of_decide_eq_true ht
                have hkle : k ≤ (trueIdxs mask1).length := by
                  rw [length_trueIdxs]
                  exact le_of_lt hsur
                have hsub := (topSel_spec ((List.range m.nCols).map (tfOf m)) mask1 k hkle).2.2.1
                have hj1 : j ∈ trueIdxs mask1 := hsub j (hselv ▸ hjsel)
                exact (mem_trueIdxs.mp hj1).2
              · exact (congrArg Prod.fst hpair).symm
              · exact (congrArg Prod.snd hpair).symm
              · intro k' hk' hsur'
                injection hk' with hkk
                rw [hmask2, hselv, hkk]
          · rw [if_neg hsur] at h1
            have h2 : filter_terms_by_df m v maxDf minDf (some k) =
                (if (trueIdxs mask1).isEmpty then Except.error VsmErr.noTermsRemain
                 else .ok (sliceCols m (trueIdxs mask1), remapVocab v mask1)) := h1
            by_cases hemp : (trueIdxs mask1).isEmpty = true
            · rw [h2, if_pos hemp] at hok
              exact absurd hok (by simp)
            · rw [h2, if_neg hemp] at hok
              have hpair := Except.ok.inj hok
              refine ⟨mask1, hlen1, fun j _ ht => ht, ?_, ?_, ?_⟩
              · exact (congrArg Prod.fst hpair).symm
              · exact (congrArg Prod.snd hpair).symm
              · intro k' hk' hsur'
                injection hk' with hkk
                rw [← hkk] at hsur'
                exact absurd hsur' hsur

/-- C3 counterexample: (a) with `max_df=1` (int) and `min_df=1.0` (float) on
three documents, the resolved max count (1) is below the resolved min
count (3), yet the all-defaults short circuit (`max_df == 1.0 and
min_df == 1 and max_n_terms is None`, numerically true for these mixed
types) returns the input unchanged without `InvalidFilterBounds`, and the
surviving column's document frequency 3 is outside [3, 1]; (b) with
`min_df=1` and `max_df=2` over three documents an all-zero column
(df = 0 < min_df) survives filtering because the lower mask is only
applied when the resolved min count exceeds 1. -/
theorem c3_counterexample :
    (filter_terms_by_df ⟨1, [[1], [1], [1]]⟩ [("a", 0)] (.int 1) (.frac 1) none =
       .ok (⟨1, [[1], [1], [1]]⟩, [("a", 0)]) ∧
     resolveDf (.int 1) 3 = 1 ∧ resolveDf (.frac 1) 3 = 3 ∧
     dfOf ⟨1, [[1], [1], [1]]⟩ 0 = 3) ∧
    (filter_terms_by_df ⟨2, [[1, 0], [1, 0], [1, 0]]⟩ [("a", 0), ("b", 1)] (.int 2) (.int 1)
       none = .ok (⟨1, [[0], [0], [0]]⟩, [("b", 0)]) ∧
     dfOf ⟨1, [[0], [0], [0]]⟩ 0 = 0 ∧ resolveDf (.int 1) 3 = 1) := by
  decide

/-- C3 amended: document-frequency filtering resolves a fractional bound to
`floor(fraction * n_rows)`; when it is not short-circuited (the bounds are
not both numerically at their defaults with `max_n_terms` unset, in which
case the input is returned unchanged with no checks at all) and the bounds
are non-negative, it fails with `InvalidFilterBounds` whenever the
resolved max count is below the resolved min count; and on success —
provided additionally that no input column is all zero — every surviving
column's document frequency lies in the closed resolved range
`[min_df, max_df]` and the surviving vocabulary's ids are contiguous from
0 with exactly one column per id. -/
theorem c3_df_filter_amended (m : Mat) (v : Vocab) (maxDf minDf : DfIn) (maxN : Option Nat)
    (hsc : shortCircuitDf maxDf minDf maxN = false)
    (hvoc : (v.map Prod.snd).Perm (List.range m.nCols))
    (hpos : ∀ j, j < m.nCols → 0 < dfOf m j) :
    (∀ (q : ℚ) (n : Nat), resolveDf (.frac q) n = Int.floor (q * (n : ℚ))) ∧
    ((maxDf.isNeg || minDf.isNeg) = false →
       resolveDf maxDf m.rows.length < resolveDf minDf m.rows.length →
       filter_terms_by_df m v maxDf minDf maxN = .error .boundsConflict) ∧
    (∀ m' v', filter_terms_by_df m v maxDf minDf maxN = .ok (m', v') →
       (∀ j, j < m'.nCols →
          resolveDf minDf m.rows.length ≤ (dfOf m' j : Int) ∧
          (dfOf m' j : Int) ≤ resolveDf maxDf m.rows.length) ∧
       (v'.map Prod.snd).Perm (List.range v'.length) ∧
       m'.nCols = v'.length) := by
  refine ⟨?_, ?_, ?_⟩
  · intro q n
    show (q.num * (n : Int)) / (q.den : Int) = Int.floor (q * (n : ℚ))
    have hq : q * (n : ℚ) = (((q.num * (n : Int)) : Int) : ℚ) / ((q.den : Nat) : ℚ) := by
      conv_lhs => rw [← Rat.num_div_den q]
      push_cast
      ring
    rw [hq, Rat.floor_intCast_div_natCast]
  · intro hneg hcf
    unfold filter_terms_by_df
    rw [hsc]
    simp only [Bool.false_eq_true, if_false]
    rw [hneg]
    simp only [Bool.false_eq_true, if_false]
    rw [if_pos hcf]
  · intro m' v' hok
    obtain ⟨mask, hlen, href, hm', hv', _⟩ := filter_terms_by_df_ok_elim hsc hok
    have hncols : m'.nCols = (trueIdxs mask).length := by
      rw [hm']
      rfl
    constructor
    · intro j hj
      rw [hncols] at hj
      have hi_mem : (trueIdxs mask).getD j 0 ∈ trueIdxs mask := by
        rw [List.getD_eq_getElem _ _ hj]
        exact List.getElem_mem hj
      obtain ⟨hi_lt, hi_true⟩ := mem_trueIdxs.mp hi_mem
      rw [hlen] at hi_lt
      have hb := href _ hi_lt hi_true
      have hdfs_len : ((List.range m.nCols).map (dfOf m)).length = m.nCols := by simp
      have hb2 := (dfBoundsMask_getD (by rw [hdfs_len]; exact hi_lt)).mp hb
      rw [getD_range_map (dfOf m) hi_lt 0] at hb2
      have hdfval : dfOf m' j = dfOf m ((trueIdxs mask).getD j 0) := by
        rw [hm']
        exact dfOf_sliceCols m (trueIdxs mask) hj
      rw [hdfval]
      constructor
      · by_cases hmn : (1 : Int) < resolveDf minDf m.rows.length
        · exact hb2.2 hmn
        · have h1 : resolveDf minDf m.rows.length ≤ 1 := le_of_not_lt hmn
          have h2 : 0 < dfOf m ((trueIdxs mask).getD j 0) := hpos _ hi_lt
          have h3 : (1 : Int) ≤ (dfOf m ((trueIdxs mask).getD j 0) : Int) := by
            exact_mod_cast h2
          exact le_trans h1 h3
      · by_cases hmx : resolveDf maxDf m.rows.length < (m.rows.length : Int)
        · exact hb2.1 hmx
        · have h1 : (m.rows.length : Int) ≤ resolveDf maxDf m.rows.length := le_of_not_lt hmx
          have h2 : (dfOf m ((trueIdxs mask).getD j 0) : Int) ≤ (m.rows.length : Int) := by
            exact_mod_cast dfOf_le_rows m _
          exact le_trans h2 h1
    · have hsnd : v'.map Prod.snd =
          ((v.map Prod.snd).filter (fun j => mask.getD j false)).map (newIdx mask) := by
        rw [hv']
        exact remapVocab_map_snd v mask
      have hfp := hvoc.filter (fun j => mask.getD j false)
      have hridx : (List.range m.nCols).filter (fun j => mask.getD j false) = trueIdxs mask := by
        unfold trueIdxs
        rw [hlen]
      have hperm2 : (v'.map Prod.snd).Perm (List.range (countTrue mask)) := by
        rw [hsnd, ← trueIdxs_map_newIdx mask, ← hridx]
        exact hfp.map _
      have hlenv : v'.length = countTrue mask := by
        have hl := hperm2.length_eq
        simpa using hl
      refine ⟨?_, ?_⟩
      · rw [hlenv]
        exact hperm2
      · rw [hncols, length_trueIdxs, hlenv]

/-- Witness for C3 at the spec's `min_df=2` scenario. -/
theorem c3_witness :
    ((([("b", 0)] : Vocab).map Prod.snd).Perm
       (List.range ([("b", 0)] : Vocab).length)) ∧
    (⟨1, [[1], [1]]⟩ : Mat).nCols = ([("b", 0)] : Vocab).length ∧
    resolveDf (.int 2) 2 ≤ (dfOf ⟨1, [[1], [1]]⟩ 0 : Int) := by
  have h := (c3_df_filter_amended ⟨3, [[2, 1, 0], [0, 1, 1]]⟩ [("a", 0), ("b", 1), ("c", 2)]
      (.frac 1) (.int 2) none (by decide) (by decide) (by decide)).2.2
      ⟨1, [[1], [1]]⟩ [("b", 0)] (by decide)
  exact ⟨h.2.1, h.2.2, (h.1 0 (by decide)).1⟩

/-- C4 counterexample: on `[[3,3]]` both columns have term frequency 3; with
`max_n_terms=1` the filter keeps column 1 ("b"), the column with the
*higher* original id, falsifying "ties broken in order of original column
id" (which would keep "a"). -/
theorem c4_counterexample :
    filter_terms_by_df ⟨2, [[3, 3]]⟩ [("a", 0), ("b", 1)] (.frac 1) (.int 1) (some 1) =
      .ok (⟨1, [[3]]⟩, [("b", 0)]) ∧
    tfOf ⟨2, [[3, 3]]⟩ 0 = tfOf ⟨2, [[3, 3]]⟩ 1 := by
  decide

/-- C4 amended: when `max_n_terms = k` is set and more than `k` columns
survive the df bounds, exactly `k` columns are kept and they are a top-`k`
selection by raw term frequency: every kept column's frequency is at least
that of every surviving-but-dropped column. The order among equal
frequencies is *not* part of the contract — `np.argsort`'s default kind is
documented as not stable, so ties are in particular not guaranteed to be
kept by ascending original column id (see the counterexample). The first
clause holds for every admissible (weakly descending) argsort outcome, the
second exhibits the executable model's selection as one such outcome, and
the third gives the exact-count consequence for the filter. -/
theorem c4_top_terms_amended (tfs : List Nat) (mask : List Bool) (k : Nat)
    (hk : k ≤ (trueIdxs mask).length) :
    (∀ out : List Nat, DescArgsortOf tfs (trueIdxs mask) out →
       (out.take k).length = k ∧
       (out.take k).Nodup ∧
       (∀ i ∈ out.take k, i ∈ trueIdxs mask) ∧
       (∀ i ∈ out.take k, ∀ j ∈ trueIdxs mask, j ∉ out.take k →
          tfs.getD j 0 ≤ tfs.getD i 0)) ∧
    (DescArgsortOf tfs (trueIdxs mask) (fullSel tfs mask) ∧
     topSel tfs mask k = (fullSel tfs mask).take k) ∧
    (∀ (m : Mat) (v : Vocab) (maxDf minDf : DfIn) (m' : Mat) (v' : Vocab),
       shortCircuitDf maxDf minDf (some k) = false →
       k < countTrue (dfBoundsMask ((List.range m.nCols).map (dfOf m)) m.rows.length
         (resolveDf maxDf m.rows.length) (resolveDf minDf m.rows.length)) →
       filter_terms_by_df m v maxDf minDf (some k) = .ok (m', v') →
       m'.nCols = k) := by
  refine ⟨?_, ⟨fullSel_admissible tfs mask, ?_⟩, ?_⟩
  · intro out hout
    obtain ⟨hperm, hpw⟩ := hout
    have hnd : (trueIdxs mask).Nodup := List.Nodup.filter _ (List.nodup_range _)
    have hlen : out.length = (trueIdxs mask).length := hperm.length_eq
    have hndout : out.Nodup := hperm.nodup_iff.mpr hnd
    have htd := List.take_append_drop k out
    refine ⟨?_, ?_, ?_, ?_⟩
    · rw [List.length_take, hlen]
      exact Nat.min_eq_left hk
    · exact List.Nodup.sublist (List.take_sublist k out) hndout
    · intro i hi
      exact hperm.subset ((List.take_sublist k out).subset hi)
    · intro i hi j hj hjn
      have hjout : j ∈ out := hperm.mem_iff.mpr hj
      have hjtd : j ∈ out.take k ++ out.drop k := by
        rw [htd]
        exact hjout
      have hjdrop : j ∈ out.drop k := by
        rcases List.mem_append.mp hjtd with h1 | h2
        · exact absurd h1 hjn
        · exact h2
      have hpw' := hpw
      rw [← htd] at hpw'
      exact (List.pairwise_append.mp hpw').2.2 i hi j hjdrop
  · simp only [topSel, fullSel]
    exact List.map_take _ _ _
  · intro m v maxDf minDf m' v' hsc hsur hok
    obtain ⟨msk, hlen, _, hm', _, hsel⟩ := filter_terms_by_df_ok_elim hsc hok
    have hmsk := hsel k rfl hsur
    have hlen1 : (dfBoundsMask ((List.range m.nCols).map (dfOf m)) m.rows.length
        (resolveDf maxDf m.rows.length) (resolveDf minDf m.rows.length)).length = m.nCols := by
      rw [length_dfBoundsMask]
      simp
    have hkle : k ≤ (trueIdxs (dfBoundsMask ((List.range m.nCols).map (dfOf m)) m.rows.length
        (resolveDf maxDf m.rows.length) (resolveDf minDf m.rows.length))).length := by
      rw [length_trueIdxs]
      exact le_of_lt hsur
    obtain ⟨hslen, hsnd, hssub, _⟩ :=
      topSel_spec ((List.range m.nCols).map (tfOf m))
        (dfBoundsMask ((List.range m.nCols).map (dfOf m)) m.rows.length
          (resolveDf maxDf m.rows.length) (resolveDf minDf m.rows.length)) k hkle
    have hsub' : ∀ i ∈ topSel ((List.range m.nCols).map (tfOf m))
        (dfBoundsMask ((List.range m.nCols).map (dfOf m)) m.rows.length
          (resolveDf maxDf m.rows.length) (resolveDf minDf m.rows.length)) k, i < m.nCols := by
      intro i hi
      have hmem := (mem_trueIdxs.mp (hssub i hi)).1
      rwa [hlen1] at hmem
    have hfin : m'.nCols = (trueIdxs msk).length := by
      rw [hm']
      rfl
    rw [hfin, hmsk, trueIdxs_maskFromSel, length_filter_mem_range hsnd hsub', hslen]

/-- Witness for C4 at the tied-frequency scenario: `[1, 0]` and `[0, 1]`
are both admissible descending argsorts of `[3, 3]` over the surviving
columns, either truncation keeps exactly one column, and the executable
model concretely keeps column 1. -/
theorem c4_witness :
    topSel ([3, 3] : List Nat) [true, true] 1 = [1] ∧
    (([1, 0] : List Nat).take 1).length = 1 ∧
    (([0, 1] : List Nat).take 1).length = 1 := by
  refine ⟨by decide, ?_, ?_⟩
  · exact ((c4_top_terms_amended [3, 3] [true, true] 1 (by decide)).1 [1, 0]
      (by refine ⟨?_, ?_⟩ <;> decide)).1
  · exact ((c4_top_terms_amended [3, 3] [true, true] 1 (by decide)).1 [0, 1]
      (by refine ⟨?_, ?_⟩ <;> decide)).1

/-! ### C6: vocabulary validation -/

lemma idOf_withIds_sorted (l : List String) (n : Nat) (hsort : l.Sorted (· ≤ ·))
    (hnd : l.Nodup) {t : String} (ht : t ∈ l) :
    idOf (withIds n l) t = some (n + l.countP (fun s => decide (s < t))) := by
  induction l generalizing n with
  | nil => simp at ht
  | cons a l ih =>
    rw [List.sorted_cons] at hsort
    rw [List.nodup_cons] at hnd
    by_cases hat : t = a
    · subst hat
      have hcount : (t :: l).countP (fun s => decide (s < t)) = 0 := by
        rw [List.countP_eq_zero]
        intro s hs
        rcases List.mem_cons.mp hs with rfl | hsl
        · simp
        · simp only [decide_eq_true_eq, not_lt]
          exact hsort.1 s hsl
      rw [hcount]
      unfold withIds idOf
      rw [List.find?_cons_of_pos _ (by simp)]
      rfl
    · have htl : t ∈ l := by
        rcases List.mem_cons.mp ht with h' | h'
        · exact absurd h' hat
        · exact h'
      have halt : a < t :=
        lt_of_le_of_ne (hsort.1 t htl) (fun h' => hat h'.symm)
      have hunf : withIds n (a :: l) = (a, n) :: withIds (n + 1) l := rfl
      rw [hunf]
      have hih := ih (n + 1) hsort.2 hnd.2 htl
      unfold idOf
      rw [List.find?_cons_of_neg _
        (by simp only [beq_iff_eq]; exact fun h' => hat h'.symm)]
      unfold idOf at hih
      rw [hih]
      have hcnt : (a :: l).countP (fun s => decide (s < t)) =
          l.countP (fun s => decide (s < t)) + 1 := by
        rw [List.countP_cons]
        simp [halt]
      rw [hcnt]
      simp only [Option.some.injEq]
      omega

/-- C6: vocabulary validation fails (with the invalid-vocabulary error)
exactly when a supplied mapping has non-unique or non-compact ids, a
supplied iterable has a duplicate term, or the supplied vocabulary is
empty; a valid iterable is sorted and each term is assigned the id equal
to the number of terms smaller than it (ids 0..n-1 in sorted order); and
the result is fixed exactly when some vocabulary input was supplied. -/
theorem c6_validate_vocabulary :
    (∀ ps : List (String × Nat),
       (validate_vocabulary (some (.mapping ps)) = .error .invalidVocabulary ↔
         ¬((ps.map Prod.snd).Nodup ∧ (∀ i < ps.length, i ∈ ps.map Prod.snd) ∧ ps ≠ []))) ∧
    (∀ ts : List String,
       (validate_vocabulary (some (.iterable ts)) = .error .invalidVocabulary ↔
         ¬(ts.Nodup ∧ ts ≠ []))) ∧
    (∀ ts : List String, ts.Nodup → ts ≠ [] →
       validate_vocabulary (some (.iterable ts)) = .ok (some (withIds 0 (sortTerms ts)), true) ∧
       ∀ t ∈ ts, idOf (withIds 0 (sortTerms ts)) t =
         some (ts.countP (fun s => decide (s < t)))) ∧
    validate_vocabulary none = .ok (none, false) ∧
    (∀ inp r, validate_vocabulary (some inp) = .ok r → r.2 = true) := by
  have hms : ∀ ps : List (String × Nat),
      ((List.range ps.length).all (fun i => (ps.map Prod.snd).contains i) = true ↔
        ∀ i < ps.length, i ∈ ps.map Prod.snd) := by
    intro ps
    rw [List.all_eq_true]
    constructor
    · intro h i hi
      have := h i (List.mem_range.mpr hi)
      simpa using this
    · intro h i hi
      simpa using h i (List.mem_range.mp hi)
  refine ⟨?_, ?_, ?_, rfl, ?_⟩
  · intro ps
    simp only [validate_vocabulary]
    by_cases h1 : (ps.map Prod.snd).Nodup
    · rw [if_neg (not_not_intro h1)]
      by_cases h2 : ∀ i < ps.length, i ∈ ps.map Prod.snd
      · rw [if_neg (not_not_intro ((hms ps).mpr h2))]
        by_cases h3 : ps = []
        · subst h3
          simp
        · rw [if_neg (by simpa using h3)]
          exact iff_of_false (by simp) (not_not_intro ⟨h1, h2, h3⟩)
      · rw [if_pos (fun hc => h2 ((hms ps).mp hc))]
        exact iff_of_true rfl (fun hc => h2 hc.2.1)
    · rw [if_pos h1]
      exact iff_of_true rfl (fun hc => h1 hc.1)
  · intro ts
    simp only [validate_vocabulary]
    by_cases h1 : ts.Nodup
    · rw [if_neg (not_not_intro h1)]
      by_cases h2 : ts = []
      · subst h2
        simp
      · rw [if_neg (by simpa using h2)]
        simp [h1, h2]
    · rw [if_pos h1]
      simp [h1]
  · intro ts h1 h2
    constructor
    · simp only [validate_vocabulary]
      rw [if_neg (not_not_intro h1), if_neg (by simpa using h2)]
    · intro t ht
      have hperm : (sortTerms ts).Perm ts := List.perm_insertionSort _ ts
      have hsort : (sortTerms ts).Sorted (· ≤ ·) := List.sorted_insertionSort _ ts
      have hnd : (sortTerms ts).Nodup := hperm.nodup_iff.mpr h1
      have htm : t ∈ sortTerms ts := hperm.mem_iff.mpr ht
      rw [idOf_withIds_sorted (sortTerms ts) 0 hsort hnd htm]
      rw [hperm.countP_eq]
      simp
  · intro inp r h
    cases inp with
    | mapping ps =>
      simp only [validate_vocabulary] at h
      split_ifs at h with h1 h2 h3
      injection h with h'
      rw [← h']
    | iterable ts =>
      simp only [validate_vocabulary] at h
      split_ifs at h with h1 h2
      injection h with h'
      rw [← h']

/-- Witness for C6 at a concrete iterable input. -/
theorem c6_witness :
    validate_vocabulary (some (.iterable ["y", "x"])) =
      .ok (some (withIds 0 (sortTerms ["y", "x"])), true) ∧
    idOf (withIds 0 (sortTerms ["y", "x"])) ("y") =
      some ((["y", "x"]).countP (fun s => decide (s < "y"))) := by
  obtain ⟨h1, h2⟩ := c6_validate_vocabulary.2.2.1 ["y", "x"] (by decide) (by decide)
  exact ⟨h1, h2 ("y") (by decide)⟩

/-! ### C10: empty-pattern matrices make frequency-based operations fail -/

lemma nnzR_toR (m : Mat) : nnzR (toR m) = nnz m := by
  unfold nnzR toR nnz
  rw [List.map_map]
  congr 1
  apply List.map_congr_left
  intro r _
  simp only [Function.comp_apply]
  rw [List.countP_map]
  apply List.countP_congr
  intro x _
  simp [Nat.cast_eq_zero]

/-- C10: a matrix without stored entries makes every operation that needs
document or term frequencies fail with an error: idf weighting (hence
tfidf re-weighting), document-frequency filtering whenever it is not the
all-defaults no-op, and information-content filtering whenever it is not
the all-defaults no-op. -/
theorem c10_zero_nnz_errors (m : Mat) (h : nnz m = 0) :
    (∀ smo : Bool, apply_idf_weighting (toR m) smo = .error .emptyMatrix) ∧
    (∀ nrm smo mindf maxdf minic maxn,
       reweight_values ⟨.tfidf, nrm, false, smo, mindf, maxdf, minic, maxn⟩ m =
         .error .emptyMatrix) ∧
    (∀ v maxDf minDf maxN, shortCircuitDf maxDf minDf maxN = false →
       ∃ e, filter_terms_by_df m v maxDf minDf maxN = .error e) ∧
    (∀ v (minIc : ℚ) maxN, ¬(minIc = 0 ∧ maxN = none) →
       ∃ e, filter_terms_by_ic m v minIc maxN = .error e) := by
  have hdfR : get_doc_freqsR (toR m) = .error .emptyMatrix := by
    unfold get_doc_freqsR
    rw [nnzR_toR, h]
    simp
  have hidf : ∀ smo : Bool, apply_idf_weighting (toR m) smo = .error .emptyMatrix := by
    intro smo
    unfold apply_idf_weighting
    rw [hdfR]
  have hdf : get_doc_freqs m = .error .emptyMatrix := by
    unfold get_doc_freqs
    rw [h]
    simp
  refine ⟨hidf, ?_, ?_, ?_⟩
  · intro nrm smo mindf maxdf minic maxn
    have hstep : reweight_values ⟨.tfidf, nrm, false, smo, mindf, maxdf, minic, maxn⟩ m =
        match apply_idf_weighting (toR m) smo with
        | .error e => .error e
        | .ok m1 => .ok (if nrm then l2normalizeRows m1 else m1) := rfl
    rw [hstep, hidf smo]
  · intro v maxDf minDf maxN hsc
    unfold filter_terms_by_df
    rw [hsc]
    simp only [Bool.false_eq_true, if_false]
    by_cases hneg : (maxDf.isNeg || minDf.isNeg) = true
    · rw [if_pos hneg]
      exact ⟨.negativeBounds, rfl⟩
    · rw [if_neg hneg]
      by_cases hcf : resolveDf maxDf m.rows.length < resolveDf minDf m.rows.length
      · rw [if_pos hcf]
        exact ⟨.boundsConflict, rfl⟩
      · rw [if_neg hcf, hdf]
        exact ⟨.emptyMatrix, rfl⟩
  · intro v minIc maxN hni
    unfold filter_terms_by_ic
    rw [if_neg hni]
    by_cases hrange : minIc < 0 ∨ 1 < minIc
    · rw [if_pos hrange]
      exact ⟨.invalidConfig, rfl⟩
    · rw [if_neg hrange]
      have hic : get_information_content m = .error .emptyMatrix := by
        unfold get_information_content get_doc_freqs_norm
        rw [h]
        simp
      rw [hic]
      exact ⟨.emptyMatrix, rfl⟩

/-- Witness for C10 at a concrete all-zero matrix. -/
theorem c10_witness :
    apply_idf_weighting (toR ⟨1, [[0]]⟩) true = .error .emptyMatrix ∧
    (∃ e, filter_terms_by_df ⟨1, [[0]]⟩ [("a", 0)] (.frac 1) (.int 2) none = .error e) := by
  obtain ⟨h1, _, h3, _⟩ := c10_zero_nnz_errors ⟨1, [[0]]⟩ (by decide)
  exact ⟨h1 true, h3 [("a", 0)] (.frac 1) (.int 2) none (by decide)⟩

/-! ### C9: idf factors come from the matrix being transformed -/

lemma reweight_values_tfidf (m : Mat) :
    reweight_values cfgTfidf m = apply_idf_weighting (toR m) true := by
  have h1 : reweight_values cfgTfidf m =
      (match apply_idf_weighting (toR m) true with
       | .error e => (.error e : Except VsmErr RMat)
       | .ok m1 => .ok (if cfgTfidf.normalize then l2normalizeRows m1 else m1)) := rfl
  rw [h1]
  cases apply_idf_weighting (toR m) true with
  | error e => rfl
  | ok x => rfl

lemma apply_idf_eval (m : RMat) (dfs0 : List Nat) (h : get_doc_freqsR m = .ok dfs0) :
    apply_idf_weighting m true =
      .ok ⟨m.nCols, m.rows.map (fun r => (List.range m.nCols).map (fun j =>
        r.getD j 0 * ((dfs0.map (· + 1)).map (fun (d : Nat) =>
          Real.log (((m.rows.length + 1 : Nat) : ℝ) / (d : ℝ)) + 1)).getD j 0))⟩ := by
  unfold apply_idf_weighting
  rw [h]
  rfl

/-- C9: under tfidf weighting, `transform` derives the idf factors from the
document frequencies of the matrix counted from the input being
transformed, not from anything recorded at fit time: with the same fixed
vocabulary `{a: 0, b: 1}` (smooth idf, no normalization), the input
`[["a"], ["a"]]` maps term "a" with idf factor `log(3/3) + 1 = 1`, while
`[["a"], ["b"]]` maps the same term with factor `log(3/2) + 1 ≠ 1`. -/
theorem c9_idf_from_transform_input :
    transform cfgTfidf [("a", 0), ("b", 1)] [["a"], ["a"]] =
      .ok ⟨2, [[1, 0], [1, 0]]⟩ ∧
    transform cfgTfidf [("a", 0), ("b", 1)] [["a"], ["b"]] =
      .ok ⟨2, [[Real.log (3 / 2) + 1, 0], [0, Real.log (3 / 2) + 1]]⟩ ∧
    Real.log (3 / 2) + 1 ≠ (1 : ℝ) := by
  have hv : ¬([("a", 0), ("b", 1)] : Vocab).length = 0 := by decide
  have hc1 : (count_terms (.fixed [("a", 0), ("b", 1)]) [["a"], ["a"]]).1 =
      ⟨2, [[1, 0], [1, 0]]⟩ := by decide
  have hc2 : (count_terms (.fixed [("a", 0), ("b", 1)]) [["a"], ["b"]]).1 =
      ⟨2, [[1, 0], [0, 1]]⟩ := by decide
  have ht1 : transform cfgTfidf [("a", 0), ("b", 1)] [["a"], ["a"]] =
      reweight_values cfgTfidf ⟨2, [[1, 0], [1, 0]]⟩ := by
    unfold transform
    rw [if_neg hv, hc1]
  have ht2 : transform cfgTfidf [("a", 0), ("b", 1)] [["a"], ["b"]] =
      reweight_values cfgTfidf ⟨2, [[1, 0], [0, 1]]⟩ := by
    unfold transform
    rw [if_neg hv, hc2]
  have htr1 : toR ⟨2, [[1, 0], [1, 0]]⟩ = ⟨2, [[(1 : ℝ), 0], [1, 0]]⟩ := by
    simp [toR]
  have htr2 : toR ⟨2, [[1, 0], [0, 1]]⟩ = ⟨2, [[(1 : ℝ), 0], [0, 1]]⟩ := by
    simp [toR]
  have hdf1 : get_doc_freqsR ⟨2, [[(1 : ℝ), 0], [1, 0]]⟩ = .ok [2, 0] := by
    have hn : nnzR ⟨2, [[(1 : ℝ), 0], [1, 0]]⟩ = 2 := by
      norm_num [nnzR, List.countP_cons, List.countP_nil]
    simp [get_doc_freqsR, hn, dfOfR, List.range_succ, List.countP_cons,
      List.getD_cons_zero, List.getD_cons_succ]
  have hdf2 : get_doc_freqsR ⟨2, [[(1 : ℝ), 0], [0, 1]]⟩ = .ok [1, 1] := by
    have hn : nnzR ⟨2, [[(1 : ℝ), 0], [0, 1]]⟩ = 2 := by
      norm_num [nnzR, List.countP_cons, List.countP_nil]
    simp [get_doc_freqsR, hn, dfOfR, List.range_succ, List.countP_cons,
      List.getD_cons_zero, List.getD_cons_succ]
  have happ1 : apply_idf_weighting ⟨2, [[(1 : ℝ), 0], [1, 0]]⟩ true =
      .ok ⟨2, [[1, 0], [1, 0]]⟩ := by
    rw [apply_idf_eval _ _ hdf1]
    norm_num [List.range_succ, List.getD_cons_zero, List.getD_cons_succ, Real.log_one]
  have happ2 : apply_idf_weighting ⟨2, [[(1 : ℝ), 0], [0, 1]]⟩ true =
      .ok ⟨2, [[Real.log (3 / 2) + 1, 0], [0, Real.log (3 / 2) + 1]]⟩ := by
    rw [apply_idf_eval _ _ hdf2]
    norm_num [List.range_succ, List.getD_cons_zero, List.getD_cons_succ]
  refine ⟨?_, ?_, ?_⟩
  · rw [ht1, reweight_values_tfidf, htr1, happ1]
  · rw [ht2, reweight_values_tfidf, htr2, happ2]
  · have hpos : 0 < Real.log (3 / 2) := Real.log_pos (by norm_num)
    intro h
    have h0 : Real.log (3 / 2) = 0 := by linarith
    exact absurd h0 (ne_of_gt hpos)

end Vsm
